import Mathlib

set_option maxHeartbeats 1000000
set_option maxRecDepth 8192

/-!
Verification of the tohaml HTML-to-HAML translator core (tohaml.py).

Strings are modelled as `List Char`.  The program runs under Python 2 with
`unicode_literals`, so whitespace, `split`, `lstrip` and `splitlines` follow
Python 2 `unicode` semantics.  Attribute mappings are modelled as ordered
association lists (the spec treats them as ordered mappings).
-/

abbrev Str := List Char

/-- Whitespace characters recognised by Python 2 `unicode.split` and
`unicode.lstrip` (the Py_UNICODE_ISSPACE set). -/
def pyIsSpace (c : Char) : Bool :=
  c.toNat == 32 || c.toNat == 9 || c.toNat == 10 || c.toNat == 11 ||
  c.toNat == 12 || c.toNat == 13 || c.toNat == 28 || c.toNat == 29 ||
  c.toNat == 30 || c.toNat == 31 || c.toNat == 133 || c.toNat == 160 ||
  c.toNat == 0x1680 || c.toNat == 0x180e ||
  (decide (0x2000 ≤ c.toNat) && decide (c.toNat ≤ 0x200a)) ||
  c.toNat == 0x2028 || c.toNat == 0x2029 || c.toNat == 0x202f ||
  c.toNat == 0x205f || c.toNat == 0x3000

/-- Line-boundary characters recognised by Python 2 `unicode.splitlines`
(besides the two-character sequence CR LF, handled separately). -/
def pyIsLineBoundary (c : Char) : Bool :=
  c.toNat == 10 || c.toNat == 13 || c.toNat == 11 || c.toNat == 12 ||
  c.toNat == 28 || c.toNat == 29 || c.toNat == 30 || c.toNat == 133 ||
  c.toNat == 0x2028 || c.toNat == 0x2029

/-- Helper for `pySplitlines`: `cur` is the current line accumulated in
reverse.  A CR LF pair counts as a single boundary; a trailing segment is
emitted only when non-empty, while a boundary always closes a line. -/
def pySplitlinesAux : List Char → Str → List Str
  | [], cur => if cur.isEmpty then [] else [cur.reverse]
  | c :: cs, cur =>
    if pyIsLineBoundary c then
      match cs with
      | cn :: cs' =>
        if c == '\r' && cn == '\n' then cur.reverse :: pySplitlinesAux cs' []
        else cur.reverse :: pySplitlinesAux (cn :: cs') []
      | [] => [cur.reverse]
    else pySplitlinesAux cs (c :: cur)

/-- Python 2 `text.splitlines()`. -/
def pySplitlines (s : Str) : List Str := pySplitlinesAux s []

/-- Helper for `pySplit`: `cur` is the current word accumulated in reverse. -/
def pySplitAux : List Char → Str → List Str
  | [], cur => if cur.isEmpty then [] else [cur.reverse]
  | c :: cs, cur =>
    if pyIsSpace c then
      if cur.isEmpty then pySplitAux cs [] else cur.reverse :: pySplitAux cs []
    else pySplitAux cs (c :: cur)

/-- Python 2 `line.split()`: split on runs of whitespace, dropping empties. -/
def pySplit (l : Str) : List Str := pySplitAux l []

/-- Python `len(line) - len(line.lstrip())`: the number of leading
whitespace characters of a line. -/
def lineIndent : Str → Nat
  | [] => 0
  | c :: cs => if pyIsSpace c then lineIndent cs + 1 else 0

/-- Python `' ' * n`. -/
def spaces (n : Nat) : Str := List.replicate n ' '

/-- Substring test (used to model the regular expression below). -/
def isSubstr (pat : Str) : Str → Bool
  | [] => pat.isEmpty
  | c :: rest => pat.isPrefixOf (c :: rest) || isSubstr pat rest

/-- The text of a string before its first newline: the region that the `.`
metacharacter of an anchored Python regular expression can span. -/
def firstLine (s : Str) : Str := s.takeWhile (fun c => c != '\n')

/-- Model of `RE_COMPILED.match(s)` where
`RE_COMPILED = re.compile(r'.*(?:#|\.|\x7b\x7b|\x7b%).*')` (tohaml.py line 39).
`re.match` anchors at the start but needs only a prefix to match, and `.`
never crosses a newline, so a match exists exactly when the first line of
`s` contains `#`, `.`, an open-expression marker or an open-statement
marker. -/
def reservedMatch (s : Str) : Bool :=
  let fl := firstLine s
  fl.contains '#' || fl.contains '.' ||
  isSubstr ['\x7b', '\x7b'] fl || isSubstr ['\x7b', '%'] fl

/-- The spec-side notion of a reserved occurrence: the string itself
contains `#`, `.`, an open-expression marker or an open-statement marker
(no first-line restriction).  Used to state claims in the spec's words and
compare them with `reservedMatch`. -/
def specContainsReserved (s : Str) : Bool :=
  s.contains '#' || s.contains '.' ||
  isSubstr ['\x7b', '\x7b'] s || isSubstr ['\x7b', '%'] s

/-- An attribute value is a plain string or (for `class`) a token list. -/
inductive AttrVal where
  | str : Str → AttrVal
  | toks : List Str → AttrVal
deriving DecidableEq

/-- An element's attribute mapping, in insertion order. -/
abbrev Attrs := List (String × AttrVal)

def lookupAttr (k : String) : Attrs → Option AttrVal
  | [] => none
  | (k', v) :: rest => if k' == k then some v else lookupAttr k rest

/-- Python `del attrs[k]`. -/
def eraseAttr (k : String) (attrs : Attrs) : Attrs :=
  attrs.filter (fun p => p.1 != k)

/-- Python `attrs[k] = v` for a key already present: the value is updated
in place. -/
def setAttr (k : String) (v : AttrVal) (attrs : Attrs) : Attrs :=
  attrs.map (fun p => if p.1 == k then (p.1, v) else p)

/-! ## Jinja-marker folding (tohaml.py lines 121-145) -/

def tokOpenStmt : Str := ['\x7b', '%']
def tokCloseStmt : Str := ['%', '\x7d']
def tokOpenExpr : Str := ['\x7b', '\x7b']
def tokCloseExpr : Str := ['\x7d', '\x7d']

def isJinjaMarker (t : Str) : Bool :=
  t == tokOpenStmt || t == tokCloseStmt || t == tokOpenExpr || t == tokCloseExpr

/-- `pos = [i for i, cls in enumerate(attrs['class']) if cls in (...)]`. -/
def markerPositions (cls : List Str) : List Nat :=
  (cls.enum.filter (fun p => isJinjaMarker p.2)).map (fun p => p.1)

/-- Python `' '.join(ws)`. -/
def spaceJoin : List Str → Str
  | [] => []
  | [w] => w
  | w :: ws => w ++ ' ' :: spaceJoin ws

/-- One folding step: `cls.insert(begin, ' '.join(cls[begin:end+1]))`
followed by `del cls[begin+1:end+2]`, i.e. the slice `[begin, end]` is
replaced by its space-join. -/
def foldRange (b e : Nat) (cls : List Str) : List Str :=
  cls.take b ++ [spaceJoin ((cls.drop b).take (e + 1 - b))] ++ cls.drop (e + 1)

/-- `zip(pos_itr, pos_itr)` over the positions sorted in descending order:
consecutive positions are paired off starting from the rightmost one. -/
def chunk2 : List Nat → List (Nat × Nat)
  | a :: b :: rest => (a, b) :: chunk2 rest
  | _ => []

/-- Apply the folds right-to-left, as the Python loop does (`(end, begin)`
pairs drawn from the descending iterator). -/
def applyFolds : List (Nat × Nat) → List Str → List Str
  | [], cls => cls
  | (e, b) :: rest, cls => applyFolds rest (foldRange b e cls)

/-- Model of `fold_jinja_tags_in_class` (tohaml.py lines 121-145), acting on
the `class` token list.  The function returns early when no literal open
marker token is present; otherwise `assert len(pos) % 2 == 0` aborts the
render on an odd marker count, modelled as `none`. -/
def fold_jinja_tags_in_class (cls : List Str) : Option (List Str) :=
  if !(cls.contains tokOpenStmt) && !(cls.contains tokOpenExpr) then some cls
  else
    let pos := markerPositions cls
    if pos.length % 2 == 0 then some (applyFolds (chunk2 pos.reverse) cls) else none

/-! ## Attribute classifier (tohaml.py lines 96-118) -/

/-- Model of `get_element_id` (tohaml.py lines 96-103): returns the
shorthand fragment and the updated mapping.  A list-valued `id` would raise
a TypeError inside `RE_COMPILED.match` in Python, modelled as `none`
(bs4 never list-values `id`). -/
def get_element_id (attrs : Attrs) : Option (Str × Attrs) :=
  match lookupAttr "id" attrs with
  | some (AttrVal.str v) =>
    if reservedMatch v then some ([], attrs)
    else some ('#' :: v, eraseAttr "id" attrs)
  | some (AttrVal.toks _) => none
  | none => some ([], attrs)

/-- Model of `get_element_class` (tohaml.py lines 106-118).  A string-valued
`class` cannot occur (bs4 always tokenizes `class`); that case is modelled
as a failure. -/
def get_element_class (attrs : Attrs) : Option (Str × Attrs) :=
  match lookupAttr "class" attrs with
  | some (AttrVal.toks cls) =>
    match fold_jinja_tags_in_class cls with
    | none => none
    | some f =>
      let tag := (f.filter (fun t => !t.isEmpty && !reservedMatch t)).foldl
        (fun acc t => acc ++ '.' :: t) []
      if f.any (fun t => reservedMatch t) then
        some (tag, setAttr "class" (AttrVal.toks (f.filter (fun t => reservedMatch t))) attrs)
      else some (tag, eraseAttr "class" attrs)
  | some (AttrVal.str _) => none
  | none => some ([], attrs)

/-- The two shorthand extractions of `print_tag` line 155, in source order:
`get_element_id(attrs) + get_element_class(attrs)` with the mapping threaded
through the two in-place mutations. -/
def tag_shorthand (attrs : Attrs) : Option (Str × Attrs) :=
  match get_element_id attrs with
  | none => none
  | some (idTag, a1) =>
    match get_element_class a1 with
    | none => none
    | some (clsTag, a2) => some (idTag ++ clsTag, a2)

/-! ## Tag renderer (tohaml.py lines 42-93 and 148-168) -/

/-- A node of the parsed tree: an element, or a text/comment leaf. -/
inductive Node where
  | tag : Str → Attrs → List Node → Node
  | text : Str → Node

/-- Rendering of one attribute value inside `attr_str`: token lists are
space-joined. -/
def valString : AttrVal → Str
  | AttrVal.str s => s
  | AttrVal.toks ts => spaceJoin ts

/-- Python `','.join(pieces)`. -/
def commaJoin : List Str → Str
  | [] => []
  | [p] => p
  | p :: ps => p ++ ',' :: commaJoin ps

/-- Model of `attr_str` (tohaml.py lines 46-60). -/
def attr_str (attrs : Attrs) : Str :=
  if attrs.isEmpty then []
  else
    '\x7b' ::
      commaJoin (attrs.map (fun p => p.1.data ++ ':' :: '"' :: valString p.2 ++ ['"'])) ++
      ['\x7d']

/-- `is_tag(prev) or unicode(prev)[-1] != ' '` for a possibly-missing
sibling.  `unicode(None)` is the string `"None"`, whose last character is
not a space.  (Python would raise IndexError on an empty text sibling;
such leaves are not produced by the parser, and the indexing is modelled by
`getLast?`.) -/
def sib_last_nospace : Option Node → Bool
  | some (Node.tag _ _ _) => true
  | some (Node.text s) => s.getLast? != some ' '
  | none => ("None".data).getLast? != some ' '

/-- `is_tag(next) or unicode(next)[0] != ' '` for a possibly-missing
sibling; `unicode(None)[0]` is `'N'`. -/
def sib_head_nospace : Option Node → Bool
  | some (Node.tag _ _ _) => true
  | some (Node.text s) => s.head? != some ' '
  | none => ("None".data).head? != some ' '

/-- Model of `is_outer_nospace` (tohaml.py lines 63-75), over the element's
previous and next siblings. -/
def is_outer_nospace (prev next : Option Node) : Bool :=
  sib_last_nospace prev && sib_head_nospace next

def node_head_nospace : Node → Bool
  | Node.tag _ _ _ => true
  | Node.text s => s.head? != some ' '

def node_last_nospace : Node → Bool
  | Node.tag _ _ _ => true
  | Node.text s => s.getLast? != some ' '

/-- Model of `is_inner_nospace` (tohaml.py lines 78-93), over the element's
child list. -/
def is_inner_nospace (contents : List Node) : Bool :=
  match contents, contents.getLast? with
  | [], _ => true
  | first :: _, some last => node_head_nospace first && node_last_nospace last
  | _ :: _, none => true

/-- The fixed set of inline element names (tohaml.py line 163). -/
def inlineNames : List Str := ["a".data, "span".data, "strong".data, "em".data]

/-- Model of `print_tag` (tohaml.py lines 148-168): the single line written
for an element, or `none` when rendering aborts (assertion failure in the
class folding).  `prev` and `next` are the element's siblings. -/
def print_tag (indentStr : Str) (name : Str) (attrs : Attrs) (contents : List Node)
    (prev next : Option Node) : Option Str :=
  if name == "style".data then some (indentStr ++ ":css".data)
  else
    match tag_shorthand attrs with
    | none => none
    | some (sfx, a2) =>
      let tag1 :=
        if name == "div".data then (if sfx.isEmpty then '%' :: name else sfx)
        else '%' :: name ++ sfx
      let tag2 := tag1 ++ attr_str a2
      let tag3 :=
        if inlineNames.contains name then
          tag2 ++ (if is_outer_nospace prev next then ['>'] else []) ++
            (if is_inner_nospace contents then ['<'] else [])
        else tag2
      some (indentStr ++ tag3)

/-! ## Word wrap (tohaml.py lines 185-206) -/

/-- The inner loop of `indented_string` for one input line: `printLine` is
the `print_line` accumulator, the returned list holds each physical line
appended to `result` (without its trailing newline).  Note that the
comparison is `len(add_word) < full_width`: the source computes
`width = full_width - indent` on line 186 but never uses it. -/
def wrapWords (indentSp : Str) (fullWidth : Nat) : Str → List Str → List Str
  | printLine, [] => if printLine.isEmpty then [] else [indentSp ++ printLine]
  | printLine, w :: ws =>
    let addWord := if printLine.isEmpty then w else printLine ++ ' ' :: w
    if addWord.length < fullWidth then
      wrapWords indentSp fullWidth addWord ws
    else
      (indentSp ++ printLine) :: wrapWords indentSp fullWidth w ws

/-- The per-line body of `indented_string`: `print_line` starts as
`' ' * line_indent` and the words are `line.split()`. -/
def wrapLine (fullWidth indent : Nat) (line : Str) : List Str :=
  wrapWords (spaces indent) fullWidth (spaces (lineIndent line)) (pySplit line)

/-- All physical lines emitted by the word-wrap step for a whole text, in
order. -/
def wrappedLines (fullWidth indent : Nat) (text : Str) : List Str :=
  ((pySplitlines text).map (wrapLine fullWidth indent)).flatten

/-- Model of `indented_string` (tohaml.py lines 185-206): each emitted
physical line is appended to `result` followed by a newline. -/
def indented_string (indent : Nat) (text : Str) (fullWidth : Nat) : Str :=
  (wrappedLines fullWidth indent text).foldr (fun l acc => l ++ '\n' :: acc) []

/-! ## Non-ASCII folding (tohaml.py lines 209-253) -/

/-- Model of `clean_quotes` (tohaml.py lines 209-216). -/
def clean_quotes (html : Str) : Str :=
  if html == "&ldquo;".data || html == "&rdquo;".data then ['"']
  else if html == "&lsquo;".data || html == "&rsquo;".data ||
          html == "&sbquo;".data || html == "&prime;".data then [Char.ofNat 39]
  else if html == "&hellip;".data then "...".data
  else html

/-- Model of `skip_unicode_to_entities` (tohaml.py lines 245-253): `false`
for the Cyrillic ranges and the two phonetic-extension code points. -/
def skip_unicode_to_entities (code : Nat) : Bool :=
  if (decide (0x0400 ≤ code) && decide (code ≤ 0x04FF)) ||
     (decide (0x0500 ≤ code) && decide (code ≤ 0x052F)) ||
     (decide (0x2DE0 ≤ code) && decide (code ≤ 0x2DFF)) ||
     (decide (0xA640 ≤ code) && decide (code ≤ 0xA69F)) ||
     code == 0x1D2B || code == 0x1D78 then false
  else true

def digitChar (n : Nat) : Char :=
  match n with
  | 0 => '0' | 1 => '1' | 2 => '2' | 3 => '3' | 4 => '4'
  | 5 => '5' | 6 => '6' | 7 => '7' | 8 => '8' | _ => '9'

def natDecAux (n : Nat) (acc : Str) : Str :=
  if h : n = 0 then acc
  else natDecAux (n / 10) (digitChar (n % 10) :: acc)
termination_by n
decreasing_by exact Nat.div_lt_self (Nat.pos_of_ne_zero h) (by decide)

/-- Decimal digits of a natural number, as produced by Python
`'{0}'.format(n)`. -/
def natDec (n : Nat) : Str := if n == 0 then ['0'] else natDecAux n []

def tableLookup (n : Nat) : List (Nat × Str) → Option Str
  | [] => none
  | (k, v) :: rest => if k == n then some v else tableLookup n rest

/-- The `codepoint2name` table of the Python 2 standard library module
`htmlentitydefs` (an external collaborator of the repository): the HTML
4.01 character entity names. -/
def codepoint2name : List (Nat × Str) :=
  [(34, "quot".data), (38, "amp".data), (60, "lt".data), (62, "gt".data),
   (160, "nbsp".data), (161, "iexcl".data), (162, "cent".data), (163, "pound".data),
   (164, "curren".data), (165, "yen".data), (166, "brvbar".data), (167, "sect".data),
   (168, "uml".data), (169, "copy".data), (170, "ordf".data), (171, "laquo".data),
   (172, "not".data), (173, "shy".data), (174, "reg".data), (175, "macr".data),
   (176, "deg".data), (177, "plusmn".data), (178, "sup2".data), (179, "sup3".data),
   (180, "acute".data), (181, "micro".data), (182, "para".data), (183, "middot".data),
   (184, "cedil".data), (185, "sup1".data), (186, "ordm".data), (187, "raquo".data),
   (188, "frac14".data), (189, "frac12".data), (190, "frac34".data), (191, "iquest".data),
   (192, "Agrave".data), (193, "Aacute".data), (194, "Acirc".data), (195, "Atilde".data),
   (196, "Auml".data), (197, "Aring".data), (198, "AElig".data), (199, "Ccedil".data),
   (200, "Egrave".data), (201, "Eacute".data), (202, "Ecirc".data), (203, "Euml".data),
   (204, "Igrave".data), (205, "Iacute".data), (206, "Icirc".data), (207, "Iuml".data),
   (208, "ETH".data), (209, "Ntilde".data), (210, "Ograve".data), (211, "Oacute".data),
   (212, "Ocirc".data), (213, "Otilde".data), (214, "Ouml".data), (215, "times".data),
   (216, "Oslash".data), (217, "Ugrave".data), (218, "Uacute".data), (219, "Ucirc".data),
   (220, "Uuml".data), (221, "Yacute".data), (222, "THORN".data), (223, "szlig".data),
   (224, "agrave".data), (225, "aacute".data), (226, "acirc".data), (227, "atilde".data),
   (228, "auml".data), (229, "aring".data), (230, "aelig".data), (231, "ccedil".data),
   (232, "egrave".data), (233, "eacute".data), (234, "ecirc".data), (235, "euml".data),
   (236, "igrave".data), (237, "iacute".data), (238, "icirc".data), (239, "iuml".data),
   (240, "eth".data), (241, "ntilde".data), (242, "ograve".data), (243, "oacute".data),
   (244, "ocirc".data), (245, "otilde".data), (246, "ouml".data), (247, "divide".data),
   (248, "oslash".data), (249, "ugrave".data), (250, "uacute".data), (251, "ucirc".data),
   (252, "uuml".data), (253, "yacute".data), (254, "thorn".data), (255, "yuml".data),
   (338, "OElig".data), (339, "oelig".data), (352, "Scaron".data), (353, "scaron".data),
   (376, "Yuml".data), (402, "fnof".data), (710, "circ".data), (732, "tilde".data),
   (913, "Alpha".data), (914, "Beta".data), (915, "Gamma".data), (916, "Delta".data),
   (917, "Epsilon".data), (918, "Zeta".data), (919, "Eta".data), (920, "Theta".data),
   (921, "Iota".data), (922, "Kappa".data), (923, "Lambda".data), (924, "Mu".data),
   (925, "Nu".data), (926, "Xi".data), (927, "Omicron".data), (928, "Pi".data),
   (929, "Rho".data), (931, "Sigma".data), (932, "Tau".data), (933, "Upsilon".data),
   (934, "Phi".data), (935, "Chi".data), (936, "Psi".data), (937, "Omega".data),
   (945, "alpha".data), (946, "beta".data), (947, "gamma".data), (948, "delta".data),
   (949, "epsilon".data), (950, "zeta".data), (951, "eta".data), (952, "theta".data),
   (953, "iota".data), (954, "kappa".data), (955, "lambda".data), (956, "mu".data),
   (957, "nu".data), (958, "xi".data), (959, "omicron".data), (960, "pi".data),
   (961, "rho".data), (962, "sigmaf".data), (963, "sigma".data), (964, "tau".data),
   (965, "upsilon".data), (966, "phi".data), (967, "chi".data), (968, "psi".data),
   (969, "omega".data), (977, "thetasym".data), (978, "upsih".data), (982, "piv".data),
   (8194, "ensp".data), (8195, "emsp".data), (8201, "thinsp".data), (8204, "zwnj".data),
   (8205, "zwj".data), (8206, "lrm".data), (8207, "rlm".data), (8211, "ndash".data),
   (8212, "mdash".data), (8216, "lsquo".data), (8217, "rsquo".data), (8218, "sbquo".data),
   (8220, "ldquo".data), (8221, "rdquo".data), (8222, "bdquo".data), (8224, "dagger".data),
   (8225, "Dagger".data), (8226, "bull".data), (8230, "hellip".data), (8240, "permil".data),
   (8242, "prime".data), (8243, "Prime".data), (8249, "lsaquo".data), (8250, "rsaquo".data),
   (8254, "oline".data), (8260, "frasl".data), (8364, "euro".data), (8465, "image".data),
   (8472, "weierp".data), (8476, "real".data), (8482, "trade".data), (8501, "alefsym".data),
   (8592, "larr".data), (8593, "uarr".data), (8594, "rarr".data), (8595, "darr".data),
   (8596, "harr".data), (8629, "crarr".data), (8656, "lArr".data), (8657, "uArr".data),
   (8658, "rArr".data), (8659, "dArr".data), (8660, "hArr".data), (8704, "forall".data),
   (8706, "part".data), (8707, "exist".data), (8709, "empty".data), (8711, "nabla".data),
   (8712, "isin".data), (8713, "notin".data), (8715, "ni".data), (8719, "prod".data),
   (8721, "sum".data), (8722, "minus".data), (8727, "lowast".data), (8730, "radic".data),
   (8733, "prop".data), (8734, "infin".data), (8736, "ang".data), (8743, "and".data),
   (8744, "or".data), (8745, "cap".data), (8746, "cup".data), (8747, "int".data),
   (8756, "there4".data), (8764, "sim".data), (8773, "cong".data), (8776, "asymp".data),
   (8800, "ne".data), (8801, "equiv".data), (8804, "le".data), (8805, "ge".data),
   (8834, "sub".data), (8835, "sup".data), (8836, "nsub".data), (8838, "sube".data),
   (8839, "supe".data), (8853, "oplus".data), (8855, "otimes".data), (8869, "perp".data),
   (8901, "sdot".data), (8968, "lceil".data), (8969, "rceil".data), (8970, "lfloor".data),
   (8971, "rfloor".data), (9001, "lang".data), (9002, "rang".data), (9674, "loz".data),
   (9824, "spades".data), (9827, "clubs".data), (9829, "hearts".data), (9830, "diams".data)]

/-- The translation of one character inside `unicode_to_entities`
(tohaml.py lines 230-240). -/
def convertChar (c : Char) : Str :=
  if decide (128 < c.toNat) && skip_unicode_to_entities c.toNat then
    match tableLookup c.toNat codepoint2name with
    | some nm => clean_quotes ('&' :: nm ++ [';'])
    | none => '&' :: '#' :: natDec c.toNat ++ [';']
  else [c]

/-- Python `'\n'.join(ls)`. -/
def nlJoin : List Str → Str
  | [] => []
  | [l] => l
  | l :: ls => l ++ '\n' :: nlJoin ls

/-- Model of `unicode_to_entities` (tohaml.py lines 219-242). -/
def unicode_to_entities (text : Str) : Str :=
  nlJoin ((pySplitlines text).map (fun line => (line.map convertChar).flatten))

/-! ## Concrete inputs used in the claim analyses -/

/-- A 40-character word and a 38-character word: each fits in the available
width 80 - 2 = 78, yet together they pack into a 79-column content line. -/
def exC1text : Str := List.replicate 40 'a' ++ ' ' :: List.replicate 38 'b'

/-- A line with two leading spaces whose two words force a wrap at width 80. -/
def exC2line : Str := spaces 2 ++ List.replicate 76 'a' ++ [' ', 'b']

/-- A class list holding a single closer marker token: one marker, an odd
count, but no opener. -/
def exC3attrs : Attrs := [("class", AttrVal.toks [['%', '\x7d']])]

/-- An id value containing a reserved `.` after a newline. -/
def exC4attrs : Attrs := [("id", AttrVal.str ['a', '\n', '.', 'b'])]

/-- A mapping with one plain class token and one reserved class token,
plus an unrelated attribute. -/
def exC9attrs : Attrs :=
  [("href", AttrVal.str "x".data), ("class", AttrVal.toks ["foo".data, "a.b".data])]

/-! ## General helper lemmas -/

theorem spaces_length (n : Nat) : (spaces n).length = n := by
  simp [spaces]

/-- Every word produced by `pySplitAux` is non-empty and whitespace-free,
provided the accumulator contains no whitespace. -/
theorem pySplitAux_good : ∀ (l : List Char) (cur : Str),
    (∀ c ∈ cur, pyIsSpace c = false) →
    ∀ w ∈ pySplitAux l cur, w ≠ [] ∧ ∀ c ∈ w, pyIsSpace c = false := by
  intro l
  induction l with
  | nil =>
    intro cur hcur w hw
    simp only [pySplitAux] at hw
    by_cases h : cur.isEmpty
    · simp [h] at hw
    · simp only [h, if_neg Bool.false_ne_true, List.mem_singleton] at hw
      subst hw
      refine ⟨by simpa [List.isEmpty_iff] using h, ?_⟩
      intro c hc
      exact hcur c (List.mem_reverse.mp hc)
  | cons c cs ih =>
    intro cur hcur w hw
    simp only [pySplitAux] at hw
    by_cases hsp : pyIsSpace c = true
    · rw [if_pos hsp] at hw
      by_cases h : cur.isEmpty
      · rw [if_pos h] at hw
        exact ih [] (by simp) w hw
      · rw [if_neg h] at hw
        rcases List.mem_cons.mp hw with rfl | hw'
        · refine ⟨by simpa [List.isEmpty_iff] using h, ?_⟩
          intro d hd
          exact hcur d (List.mem_reverse.mp hd)
        · exact ih [] (by simp) w hw'
    · rw [if_neg hsp] at hw
      refine ih (c :: cur) ?_ w hw
      intro d hd
      rcases List.mem_cons.mp hd with rfl | hd'
      · exact Bool.eq_false_iff.mpr hsp
      · exact hcur d hd'

theorem pySplit_good (l : Str) :
    ∀ w ∈ pySplit l, w ≠ [] ∧ ∀ c ∈ w, pyIsSpace c = false :=
  pySplitAux_good l [] (by simp)

/-- Every line emitted by the wrap loop stays within `79 + indent` columns,
given that the running `print_line` satisfies the loop invariant and every
remaining word is strictly shorter than the available width. -/
theorem wrapWords_bound (indent : Nat) :
    ∀ (ws : List Str) (p : Str),
    (p.length ≤ 79 ∨ p.length + indent < 80) →
    (∀ w ∈ ws, w.length + indent < 80) →
    ∀ l ∈ wrapWords (spaces indent) 80 p ws, l.length ≤ 79 + indent := by
  intro ws
  induction ws with
  | nil =>
    intro p hp _ l hl
    simp only [wrapWords] at hl
    by_cases h : p.isEmpty
    · simp [h] at hl
    · simp only [h, if_neg Bool.false_ne_true, List.mem_singleton] at hl
      subst hl
      simp only [List.length_append, spaces_length]
      omega
  | cons w ws ih =>
    intro p hp hws l hl
    have hw : w.length + indent < 80 := hws w (List.mem_cons_self w ws)
    have hws' : ∀ w' ∈ ws, w'.length + indent < 80 :=
      fun w' hw' => hws w' (List.mem_cons_of_mem w hw')
    simp only [wrapWords] at hl
    by_cases hpe : p.isEmpty
    · have hpnil : p = [] := List.isEmpty_iff.mp hpe
      rw [if_pos hpe] at hl
      have hlt : w.length < 80 := by omega
      rw [if_pos hlt] at hl
      exact ih w (Or.inr hw) hws' l hl
    · rw [if_neg hpe] at hl
      by_cases hlt : (p ++ ' ' :: w).length < 80
      · rw [if_pos hlt] at hl
        refine ih (p ++ ' ' :: w) (Or.inl ?_) hws' l hl
        simp only [List.length_append, List.length_cons] at hlt ⊢
        omega
      · rw [if_neg hlt] at hl
        rcases List.mem_cons.mp hl with rfl | hl'
        · simp only [List.length_append, spaces_length]
          omega
        · exact ih w (Or.inr hw) hws' l hl'

/-- If the resulting line list has a head, it extends the initial
`print_line` (with the nesting indent prepended). -/
theorem wrapWords_head_prefix (indentSp : Str) (fw : Nat) :
    ∀ (ws : List Str) (p : Str) (h : Str),
    (wrapWords indentSp fw p ws).head? = some h → (indentSp ++ p) <+: h := by
  intro ws
  induction ws with
  | nil =>
    intro p h hh
    simp only [wrapWords] at hh
    by_cases he : p.isEmpty
    · simp [he] at hh
    · simp only [he, if_neg Bool.false_ne_true, List.head?_cons, Option.some.injEq] at hh
      subst hh
      exact List.prefix_refl _
  | cons w ws ih =>
    intro p h hh
    simp only [wrapWords] at hh
    by_cases hpe : p.isEmpty
    · have hpnil : p = [] := List.isEmpty_iff.mp hpe
      rw [if_pos hpe] at hh
      by_cases hlt : w.length < fw
      · rw [if_pos hlt] at hh
        have := ih w h hh
        subst hpnil
        simp only [List.append_nil]
        exact (List.prefix_append indentSp w).trans this
      · rw [if_neg hlt] at hh
        simp only [List.head?_cons, Option.some.injEq] at hh
        subst hh
        exact List.prefix_refl _
    · rw [if_neg hpe] at hh
      by_cases hlt : (p ++ ' ' :: w).length < fw
      · rw [if_pos hlt] at hh
        have := ih (p ++ ' ' :: w) h hh
        refine List.IsPrefix.trans ?_ this
        rw [← List.append_assoc]
        exact List.prefix_append _ _
      · rw [if_neg hlt] at hh
        simp only [List.head?_cons, Option.some.injEq] at hh
        subst hh
        exact List.prefix_refl _

/-- When the running `print_line` begins with a non-whitespace character,
every emitted line is the indent followed by a non-whitespace character. -/
theorem wrapWords_all_wordstart (indentSp : Str) (fw : Nat) :
    ∀ (ws : List Str) (p : Str),
    (∃ c r, p = c :: r ∧ pyIsSpace c = false) →
    (∀ w ∈ ws, w ≠ [] ∧ ∀ c ∈ w, pyIsSpace c = false) →
    ∀ l ∈ wrapWords indentSp fw p ws,
      ∃ c r, l = indentSp ++ c :: r ∧ pyIsSpace c = false := by
  intro ws
  induction ws with
  | nil =>
    intro p hp _ l hl
    obtain ⟨c, r, rfl, hc⟩ := hp
    simp only [wrapWords, List.isEmpty_cons, if_neg Bool.false_ne_true,
      List.mem_singleton] at hl
    exact ⟨c, r, hl, hc⟩
  | cons w ws ih =>
    intro p hp hws l hl
    obtain ⟨c, r, rfl, hc⟩ := hp
    have hwgood := hws w (List.mem_cons_self w ws)
    have hws' : ∀ w' ∈ ws, w' ≠ [] ∧ ∀ d ∈ w', pyIsSpace d = false :=
      fun w' hw' => hws w' (List.mem_cons_of_mem w hw')
    obtain ⟨w0, wr, hwx⟩ : ∃ w0 wr, w = w0 :: wr := by
      cases w with
      | nil => exact absurd rfl hwgood.1
      | cons w0 wr => exact ⟨w0, wr, rfl⟩
    have hw0 : pyIsSpace w0 = false := hwgood.2 w0 (by rw [hwx]; exact List.mem_cons_self _ _)
    simp only [wrapWords, List.isEmpty_cons, if_neg Bool.false_ne_true] at hl
    by_cases hlt : ((c :: r) ++ ' ' :: w).length < fw
    · rw [if_pos hlt] at hl
      exact ih ((c :: r) ++ ' ' :: w) ⟨c, r ++ ' ' :: w, by simp, hc⟩ hws' l hl
    · rw [if_neg hlt] at hl
      rcases List.mem_cons.mp hl with rfl | hl'
      · exact ⟨c, r, rfl, hc⟩
      · exact ih w ⟨w0, wr, hwx, hw0⟩ hws' l hl'

/-- Every line after the first emitted by the wrap loop is the indent
followed directly by a non-whitespace character, whatever the initial
`print_line` was. -/
theorem wrapWords_tail_wordstart (indentSp : Str) (fw : Nat) :
    ∀ (ws : List Str) (p : Str),
    (∀ w ∈ ws, w ≠ [] ∧ ∀ c ∈ w, pyIsSpace c = false) →
    ∀ l ∈ (wrapWords indentSp fw p ws).drop 1,
      ∃ c r, l = indentSp ++ c :: r ∧ pyIsSpace c = false := by
  intro ws
  induction ws with
  | nil =>
    intro p _ l hl
    simp only [wrapWords] at hl
    by_cases he : p.isEmpty
    · simp [he] at hl
    · simp [he] at hl
  | cons w ws ih =>
    intro p hws l hl
    have hwgood := hws w (List.mem_cons_self w ws)
    have hws' : ∀ w' ∈ ws, w' ≠ [] ∧ ∀ d ∈ w', pyIsSpace d = false :=
      fun w' hw' => hws w' (List.mem_cons_of_mem w hw')
    obtain ⟨w0, wr, hwx⟩ : ∃ w0 wr, w = w0 :: wr := by
      cases w with
      | nil => exact absurd rfl hwgood.1
      | cons w0 wr => exact ⟨w0, wr, rfl⟩
    have hw0 : pyIsSpace w0 = false := hwgood.2 w0 (by rw [hwx]; exact List.mem_cons_self _ _)
    simp only [wrapWords] at hl
    by_cases hpe : p.isEmpty
    · rw [if_pos hpe] at hl
      by_cases hlt : w.length < fw
      · rw [if_pos hlt] at hl
        exact ih w hws' l hl
      · rw [if_neg hlt] at hl
        rw [List.drop_one, List.tail_cons] at hl
        exact wrapWords_all_wordstart indentSp fw ws w ⟨w0, wr, hwx, hw0⟩ hws' l hl
    · rw [if_neg hpe] at hl
      by_cases hlt : (p ++ ' ' :: w).length < fw
      · rw [if_pos hlt] at hl
        exact ih (p ++ ' ' :: w) hws' l hl
      · rw [if_neg hlt] at hl
        rw [List.drop_one, List.tail_cons] at hl
        exact wrapWords_all_wordstart indentSp fw ws w ⟨w0, wr, hwx, hw0⟩ hws' l hl

/-! ## Claim C1 -/

/-- C1 counterexample: at nesting indent 2, a text consisting of a
40-character word and a 38-character word has every whitespace-delimited
word fitting in the available width 80 - 2 = 78, yet the single emitted
physical line (indent prefix included) is 81 columns long, exceeding the
fixed column width 80. -/
theorem C1_counterexample :
    (∀ line ∈ pySplitlines exC1text, ∀ w ∈ pySplit line, w.length ≤ 78) ∧
    ∃ l ∈ wrappedLines 80 2 exC1text, 80 < l.length := by
  constructor
  · decide
  · decide

/-- C1 amended: the wrap threshold compares the content without the indent
prefix against the full width 80 (the `width = full_width - indent` of line
186 is computed but never used), so the correct bound is 79 + indent, not
80: provided every word and every line's leading-whitespace run is strictly
shorter than the available width 80 - indent, each physical line emitted by
the word-wrap step, indent prefix included, has length at most 79 + indent. -/
theorem C1_amended (indent : Nat) (text : Str)
    (hw : ∀ line ∈ pySplitlines text, ∀ w ∈ pySplit line, w.length + indent < 80)
    (hli : ∀ line ∈ pySplitlines text, lineIndent line + indent < 80) :
    ∀ l ∈ wrappedLines 80 indent text, l.length ≤ 79 + indent := by
  intro l hl
  simp only [wrappedLines, List.mem_flatten, List.mem_map] at hl
  obtain ⟨lls, ⟨line, hline, rfl⟩, hmem⟩ := hl
  refine wrapWords_bound indent (pySplit line) (spaces (lineIndent line))
    (Or.inr ?_) (fun w hw' => hw line hline w hw') l hmem
  rw [spaces_length]
  exact hli line hline

/-- C1 witness: the amended bound applied to the counterexample input. -/
theorem C1_witness :
    (spaces 2 ++ (List.replicate 40 'a' ++ ' ' :: List.replicate 38 'b')).length ≤ 79 + 2 :=
  C1_amended 2 exC1text (by decide) (by decide) _ (by decide)

/-! ## Claim C2 -/

/-- C2 counterexample: the input line has two leading spaces and wraps into
two physical lines at indent 0; the continuation line is the bare word `b`,
which does not begin with the re-applied original leading-space
indentation. -/
theorem C2_counterexample :
    lineIndent exC2line = 2 ∧
    (wrapLine 80 0 exC2line).drop 1 = [['b']] ∧
    (spaces 0 ++ spaces 2).isPrefixOf ['b'] = false := by
  refine ⟨by decide, by decide, by decide⟩

/-- C2 amended: the original leading-space indentation is re-applied only
on the first physical line produced for an input line; every continuation
line consists of the nesting-level indent followed immediately by a
non-whitespace word character, with no re-applied prefix. -/
theorem C2_amended (indent : Nat) (line : Str) :
    (∀ h, (wrapLine 80 indent line).head? = some h →
      (spaces indent ++ spaces (lineIndent line)) <+: h) ∧
    (∀ l ∈ (wrapLine 80 indent line).drop 1,
      ∃ c r, l = spaces indent ++ c :: r ∧ pyIsSpace c = false) := by
  constructor
  · intro h hh
    exact wrapWords_head_prefix (spaces indent) 80 (pySplit line)
      (spaces (lineIndent line)) h hh
  · intro l hl
    exact wrapWords_tail_wordstart (spaces indent) 80 (pySplit line)
      (spaces (lineIndent line)) (pySplit_good line) l hl

/-- C2 witness: at the counterexample line, the continuation line starts
with the non-space character `b` right after the (empty) nesting indent. -/
theorem C2_witness :
    ∃ c r, (['b'] : Str) = spaces 0 ++ c :: r ∧ pyIsSpace c = false :=
  (C2_amended 0 exC2line).2 ['b'] (by decide)


/-! ## Claim C3 -/

/-- C3 counterexample: the class token list holding the single closer token
`%\x7d` has an odd number of marker tokens (one), yet the folding guard
returns early (no opener token is present), the assertion is never reached,
and the element renders permissively as `.%\x7d` instead of aborting. -/
theorem C3_counterexample :
    (markerPositions [['%', '\x7d']]).length % 2 = 1 ∧
    get_element_class exC3attrs ≠ none ∧
    print_tag [] "div".data exC3attrs [] none none = some ['.', '%', '\x7d'] := by
  refine ⟨by decide, by decide, by decide⟩

/-- C3 amended: rendering an element with a class token list aborts exactly
when the list literally contains an opener marker token (`\x7b%` or
`\x7b\x7b`) and the total number of marker tokens is odd; a list whose
markers are only closers is processed permissively, because the folding
function returns before the assertion when no opener token is present. -/
theorem C3_amended (attrs : Attrs) (cls : List Str)
    (h : lookupAttr "class" attrs = some (AttrVal.toks cls)) :
    get_element_class attrs = none ↔
      ((cls.contains tokOpenStmt || cls.contains tokOpenExpr) = true ∧
        (markerPositions cls).length % 2 = 1) := by
  unfold get_element_class fold_jinja_tags_in_class
  rw [h]
  dsimp only
  by_cases h1 : cls.contains tokOpenStmt = true
  · rw [if_neg (by rw [h1]; simp)]
    by_cases hm : (markerPositions cls).length % 2 = 0
    · rw [if_pos (by simpa using hm)]
      dsimp only
      constructor
      · intro hc
        split at hc <;> exact absurd hc (by simp)
      · intro hc
        omega
    · rw [if_neg (by simpa using hm)]
      dsimp only
      refine ⟨fun _ => ⟨by rw [h1]; rfl, by omega⟩, fun _ => rfl⟩
  · by_cases h2 : cls.contains tokOpenExpr = true
    · rw [if_neg (by rw [h2]; simp)]
      by_cases hm : (markerPositions cls).length % 2 = 0
      · rw [if_pos (by simpa using hm)]
        dsimp only
        constructor
        · intro hc
          split at hc <;> exact absurd hc (by simp)
        · intro hc
          omega
      · rw [if_neg (by simpa using hm)]
        dsimp only
        refine ⟨fun _ => ⟨by rw [h2]; simp, by omega⟩, fun _ => rfl⟩
    · rw [if_pos (by rw [Bool.eq_false_iff.mpr h1, Bool.eq_false_iff.mpr h2]; rfl)]
      constructor
      · intro hc
        dsimp only at hc
        split at hc <;> exact absurd hc (by simp)
      · intro hc
        rw [Bool.eq_false_iff.mpr h1, Bool.eq_false_iff.mpr h2] at hc
        simp at hc

/-- C3 witness: a class list holding a single opener token makes the
rendering of the element abort. -/
theorem C3_witness :
    get_element_class [("class", AttrVal.toks [['\x7b', '%']])] = none :=
  (C3_amended [("class", AttrVal.toks [['\x7b', '%']])] [['\x7b', '%']] rfl).mpr
    ⟨by decide, by decide⟩

/-! ## Claim C4 -/

/-- C4 counterexample: the id value `a\n.b` contains the reserved character
`.`, so the claim requires the empty shorthand and an unchanged mapping;
but `RE_COMPILED.match` cannot see past the newline, so the code returns
the `#` shorthand and removes the key. -/
theorem C4_counterexample :
    ('.' ∈ (['a', '\n', '.', 'b'] : Str)) ∧
    get_element_id exC4attrs = some ('#' :: ['a', '\n', '.', 'b'], []) ∧
    get_element_id exC4attrs ≠ some ([], exC4attrs) := by
  refine ⟨by decide, by decide, by decide⟩

/-- C4 amended: reserved occurrences are detected only in the portion of
the id value before the first newline: if an `id` key exists and the first
line of its value contains none of `#`, `.`, `\x7b\x7b`, `\x7b%`, the
function returns `#` + value and removes the key; otherwise (no `id`, or a
first line containing a reserved occurrence) it returns the empty string
and leaves the mapping unchanged.  (A token-list-valued id, which bs4 never
produces, would crash the Python code.) -/
theorem C4_amended (attrs : Attrs) :
    get_element_id attrs =
      match lookupAttr "id" attrs with
      | some (AttrVal.str v) =>
        if specContainsReserved (firstLine v) then some ([], attrs)
        else some ('#' :: v, eraseAttr "id" attrs)
      | some (AttrVal.toks _) => none
      | none => some ([], attrs) := by
  unfold get_element_id
  cases hv : lookupAttr "id" attrs with
  | none => rfl
  | some v =>
    cases v with
    | toks ts => rfl
    | str s => rfl

/-! ## Claim C9 -/

/-- Removing one key leaves lookups of every other key unchanged. -/
theorem lookupAttr_eraseAttr_ne (k k' : String) (attrs : Attrs) (h : k ≠ k') :
    lookupAttr k (eraseAttr k' attrs) = lookupAttr k attrs := by
  induction attrs with
  | nil => rfl
  | cons p rest ih =>
    obtain ⟨pk, pv⟩ := p
    simp only [eraseAttr, List.filter_cons] at ih ⊢
    by_cases hpk : pk = k'
    · rw [if_neg (by simpa using hpk)]
      rw [ih]
      simp only [lookupAttr]
      rw [if_neg (by simpa using fun e : pk = k => h (e ▸ hpk))]
    · rw [if_pos (by simpa using hpk)]
      simp only [lookupAttr]
      by_cases hk : pk = k
      · rw [if_pos (by simpa using hk), if_pos (by simpa using hk)]
      · rw [if_neg (by simpa using hk), if_neg (by simpa using hk)]
        exact ih

/-- Updating one key's value in place leaves lookups of every other key
unchanged. -/
theorem lookupAttr_setAttr_ne (k k' : String) (v : AttrVal) (attrs : Attrs)
    (h : k ≠ k') :
    lookupAttr k (setAttr k' v attrs) = lookupAttr k attrs := by
  induction attrs with
  | nil => rfl
  | cons p rest ih =>
    obtain ⟨pk, pv⟩ := p
    simp only [setAttr, List.map_cons] at ih ⊢
    by_cases hpk : pk = k'
    · rw [if_pos (by simpa using hpk)]
      simp only [lookupAttr]
      rw [if_neg (by simpa using fun e : pk = k => h (e ▸ hpk)),
        if_neg (by simpa using fun e : pk = k => h (e ▸ hpk))]
      exact ih
    · rw [if_neg (by simpa using hpk)]
      simp only [lookupAttr]
      by_cases hk : pk = k
      · rw [if_pos (by simpa using hk), if_pos (by simpa using hk)]
      · rw [if_neg (by simpa using hk), if_neg (by simpa using hk)]
        exact ih

/-- `get_element_id` changes no key other than `id`. -/
theorem get_element_id_frame (attrs : Attrs) (t : Str) (a1 : Attrs)
    (h : get_element_id attrs = some (t, a1)) (k : String) (hk : k ≠ "id") :
    lookupAttr k a1 = lookupAttr k attrs := by
  unfold get_element_id at h
  split at h
  · split at h
    · simp only [Option.some.injEq, Prod.mk.injEq] at h
      obtain ⟨-, rfl⟩ := h
      rfl
    · simp only [Option.some.injEq, Prod.mk.injEq] at h
      obtain ⟨-, rfl⟩ := h
      exact lookupAttr_eraseAttr_ne k "id" attrs hk
  · exact absurd h (by simp)
  · simp only [Option.some.injEq, Prod.mk.injEq] at h
    obtain ⟨-, rfl⟩ := h
    rfl

/-- `get_element_class` changes no key other than `class`. -/
theorem get_element_class_frame (attrs : Attrs) (t : Str) (a1 : Attrs)
    (h : get_element_class attrs = some (t, a1)) (k : String) (hk : k ≠ "class") :
    lookupAttr k a1 = lookupAttr k attrs := by
  unfold get_element_class at h
  split at h
  · split at h
    · exact absurd h (by simp)
    · split at h
      · simp only [Option.some.injEq, Prod.mk.injEq] at h
        obtain ⟨-, rfl⟩ := h
        exact lookupAttr_setAttr_ne k "class" _ attrs hk
      · simp only [Option.some.injEq, Prod.mk.injEq] at h
        obtain ⟨-, rfl⟩ := h
        exact lookupAttr_eraseAttr_ne k "class" attrs hk
  · exact absurd h (by simp)
  · simp only [Option.some.injEq, Prod.mk.injEq] at h
    obtain ⟨-, rfl⟩ := h
    rfl

/-- C9 counterexample: on a mapping whose class list mixes a plain and a
reserved token, rendering replaces the `class` value (the plain token is
dropped) without removing the key — a mutation that is not a removal of
`id` or `class`, contradicting the claim that removal is the only
mutation. -/
theorem C9_counterexample :
    tag_shorthand exC9attrs =
      some (['.', 'f', 'o', 'o'],
        [("href", AttrVal.str "x".data), ("class", AttrVal.toks [['a', '.', 'b']])]) ∧
    lookupAttr "class"
      [("href", AttrVal.str "x".data), ("class", AttrVal.toks [['a', '.', 'b']])] ≠ none ∧
    lookupAttr "class"
      [("href", AttrVal.str "x".data), ("class", AttrVal.toks [['a', '.', 'b']])] ≠
      lookupAttr "class" exC9attrs := by
  refine ⟨by decide, by decide, by decide⟩

/-- C9 amended: the only keys of the element's own attribute mapping whose
values can change during shorthand extraction are `id` (removed when clean)
and `class` (folded, then removed or replaced by its reserved tokens);
every other key keeps its original value. -/
theorem C9_amended (attrs : Attrs) (sfx : Str) (a2 : Attrs)
    (h : tag_shorthand attrs = some (sfx, a2)) :
    ∀ k, k ≠ "id" → k ≠ "class" → lookupAttr k a2 = lookupAttr k attrs := by
  intro k hid hcls
  unfold tag_shorthand at h
  split at h
  · exact absurd h (by simp)
  · rename_i idTag a1 hi
    split at h
    · exact absurd h (by simp)
    · rename_i clsTag a2' hc
      simp only [Option.some.injEq, Prod.mk.injEq] at h
      obtain ⟨-, rfl⟩ := h
      rw [get_element_class_frame a1 clsTag a2' hc k hcls]
      exact get_element_id_frame attrs idTag a1 hi k hid

/-- C9 witness: the unrelated `href` attribute survives shorthand
extraction unchanged on the counterexample mapping. -/
theorem C9_witness :
    lookupAttr "href"
      [("href", AttrVal.str "x".data), ("class", AttrVal.toks [['a', '.', 'b']])] =
      lookupAttr "href" exC9attrs :=
  C9_amended exC9attrs ['.', 'f', 'o', 'o']
    [("href", AttrVal.str "x".data), ("class", AttrVal.toks [['a', '.', 'b']])]
    (by decide) "href" (by decide) (by decide)

/-! ## Claims C6 and C10 -/

/-- The general shape of a rendered non-style tag line: shorthand-driven
tag-name omission, attribute map, then inline-adjacency markers. -/
theorem print_tag_eq (indentStr : Str) (name : Str) (attrs : Attrs)
    (contents : List Node) (prev next : Option Node) (sfx : Str) (a2 : Attrs)
    (hstyle : name ≠ "style".data)
    (h : tag_shorthand attrs = some (sfx, a2)) :
    print_tag indentStr name attrs contents prev next =
      some (indentStr ++
        (if name = "div".data ∧ sfx ≠ [] then sfx else '%' :: (name ++ sfx)) ++
        attr_str a2 ++
        (if inlineNames.contains name then
          (if is_outer_nospace prev next then ['>'] else []) ++
          (if is_inner_nospace contents then ['<'] else [])
        else [])) := by
  unfold print_tag
  rw [if_neg (show ¬(name == "style".data) = true from by simpa using hstyle), h]
  dsimp only
  by_cases hin : inlineNames.contains name = true
  · rw [if_pos hin, if_pos hin]
    by_cases hd : (name == "div".data) = true
    · by_cases hemp : sfx.isEmpty = true
      · have hemp' : sfx = [] := List.isEmpty_iff.mp hemp
        rw [if_pos hd, if_pos hemp,
          if_neg (show ¬(name = "div".data ∧ sfx ≠ []) from fun hc => hc.2 hemp')]
        rw [hemp']
        simp [List.append_assoc]
      · rw [if_pos hd, if_neg hemp,
          if_pos (show name = "div".data ∧ sfx ≠ [] from
            ⟨by simpa using hd, fun e => hemp (by simp [e])⟩)]
        simp [List.append_assoc]
    · rw [if_neg hd,
        if_neg (show ¬(name = "div".data ∧ sfx ≠ []) from
          fun hc => hd (by simp [hc.1]))]
      simp [List.append_assoc]
  · rw [if_neg hin, if_neg hin]
    by_cases hd : (name == "div".data) = true
    · by_cases hemp : sfx.isEmpty = true
      · have hemp' : sfx = [] := List.isEmpty_iff.mp hemp
        rw [if_pos hd, if_pos hemp,
          if_neg (show ¬(name = "div".data ∧ sfx ≠ []) from fun hc => hc.2 hemp')]
        rw [hemp']
        simp [List.append_assoc]
      · rw [if_pos hd, if_neg hemp,
          if_pos (show name = "div".data ∧ sfx ≠ [] from
            ⟨by simpa using hd, fun e => hemp (by simp [e])⟩)]
        simp [List.append_assoc]
    · rw [if_neg hd,
        if_neg (show ¬(name = "div".data ∧ sfx ≠ []) from
          fun hc => hd (by simp [hc.1]))]
      simp [List.append_assoc]

/-- C6: for every non-style element, the explicit tag-name token is omitted
exactly when the name is `div` and the id/class shorthand suffix is
non-empty; for every other name, and for a `div` with empty shorthand, the
line content begins with `%` + name followed by the shorthand suffix. -/
theorem C6_tag_omission (indentStr : Str) (name : Str) (attrs : Attrs)
    (contents : List Node) (prev next : Option Node) (sfx : Str) (a2 : Attrs)
    (hstyle : name ≠ "style".data)
    (h : tag_shorthand attrs = some (sfx, a2)) :
    print_tag indentStr name attrs contents prev next =
      some (indentStr ++
        (if name = "div".data ∧ sfx ≠ [] then sfx else '%' :: (name ++ sfx)) ++
        attr_str a2 ++
        (if inlineNames.contains name then
          (if is_outer_nospace prev next then ['>'] else []) ++
          (if is_inner_nospace contents then ['<'] else [])
        else [])) :=
  print_tag_eq indentStr name attrs contents prev next sfx a2 hstyle h

/-- C6 witness: `<h1 class='cls' id='id'>` renders as `%h1#id.cls` (explicit
name kept, shorthand appended). -/
theorem C6_witness :
    print_tag [] "h1".data
      [("class", AttrVal.toks ["cls".data]), ("id", AttrVal.str "id".data)]
      [] none none = some "%h1#id.cls".data :=
  (C6_tag_omission [] "h1".data
    [("class", AttrVal.toks ["cls".data]), ("id", AttrVal.str "id".data)]
    [] none none "#id.cls".data [] (by decide) (by decide)).trans (by decide)

/-- C10: a missing sibling counts as having no adjacent whitespace (the
`unicode(None)` text `None` neither starts nor ends with a space), so an
inline element that is its parent's only child always receives the `>`
outer-nospace marker on its rendered line. -/
theorem C10_only_child (indentStr : Str) (name : Str) (attrs : Attrs)
    (contents : List Node) (sfx : Str) (a2 : Attrs)
    (hinline : inlineNames.contains name = true)
    (h : tag_shorthand attrs = some (sfx, a2)) :
    is_outer_nospace none none = true ∧
    print_tag indentStr name attrs contents none none =
      some (indentStr ++
        (if name = "div".data ∧ sfx ≠ [] then sfx else '%' :: (name ++ sfx)) ++
        attr_str a2 ++
        ('>' :: (if is_inner_nospace contents then ['<'] else []))) := by
  have hstyle : name ≠ "style".data := by
    intro e
    rw [e] at hinline
    exact absurd hinline (by decide)
  refine ⟨by decide, ?_⟩
  rw [print_tag_eq indentStr name attrs contents none none sfx a2 hstyle h]
  rw [if_pos hinline, if_pos (by decide : is_outer_nospace none none = true)]
  rfl

/-- C10 witness: an `a` element with no attributes, no children and no
siblings renders as `%a><`. -/
theorem C10_witness :
    print_tag [] "a".data [] [] none none = some "%a><".data :=
  ((C10_only_child [] "a".data [] [] [] [] (by decide) (by decide)).2).trans (by decide)

/-! ## Claim C5 -/

/-- A string without a newline is its own first line. -/
theorem firstLine_eq_self (t : Str) (h : '\n' ∉ t) : firstLine t = t := by
  induction t with
  | nil => rfl
  | cons c cs ih =>
    have hc : c ≠ '\n' := fun e => h (e ▸ List.mem_cons_self c cs)
    simp only [firstLine, List.takeWhile_cons] at ih ⊢
    rw [if_pos (by simpa using hc)]
    simp only [List.cons.injEq, true_and]
    exact ih (fun hm => h (List.mem_cons_of_mem c hm))

/-- On newline-free tokens, the regular-expression test coincides with the
spec-side containment test. -/
theorem reservedMatch_eq_spec (t : Str) (h : '\n' ∉ t) :
    reservedMatch t = specContainsReserved t := by
  unfold reservedMatch specContainsReserved
  rw [firstLine_eq_self t h]

/-- Space-joining newline-free tokens yields a newline-free token. -/
theorem spaceJoin_no_newline : ∀ (g : List Str),
    (∀ w ∈ g, '\n' ∉ w) → '\n' ∉ spaceJoin g := by
  intro g
  induction g with
  | nil => intro _ h; exact absurd h (by simp [spaceJoin])
  | cons w ws ih =>
    intro hg hm
    cases ws with
    | nil =>
      exact absurd hm (hg w (List.mem_cons_self w []))
    | cons w2 ws' =>
      simp only [spaceJoin] at hm
      rcases List.mem_append.mp hm with hm1 | hm2
      · exact absurd hm1 (hg w (List.mem_cons_self _ _))
      · rcases List.mem_cons.mp hm2 with he | hm3
        · exact absurd he (by decide)
        · exact ih (fun w' hw' => hg w' (List.mem_cons_of_mem w hw')) hm3

/-- One folding step preserves newline-freeness of every token. -/
theorem foldRange_no_newline (b e : Nat) (cls : List Str)
    (h : ∀ t ∈ cls, '\n' ∉ t) : ∀ t ∈ foldRange b e cls, '\n' ∉ t := by
  intro t ht
  unfold foldRange at ht
  rcases List.mem_append.mp ht with ht1 | ht2
  · rcases List.mem_append.mp ht1 with ht3 | ht4
    · exact h t (List.take_subset b cls ht3)
    · rcases List.mem_singleton.mp ht4 with rfl
      refine spaceJoin_no_newline _ ?_
      intro w hw
      exact h w (List.drop_subset b cls (List.take_subset _ _ hw))
  · exact h t (List.drop_subset (e + 1) cls ht2)

/-- The fold loop preserves newline-freeness of every token. -/
theorem applyFolds_no_newline : ∀ (ps : List (Nat × Nat)) (cls : List Str),
    (∀ t ∈ cls, '\n' ∉ t) → ∀ t ∈ applyFolds ps cls, '\n' ∉ t := by
  intro ps
  induction ps with
  | nil => intro cls h; exact h
  | cons p rest ih =>
    intro cls h
    obtain ⟨e, b⟩ := p
    exact ih (foldRange b e cls) (foldRange_no_newline b e cls h)

/-- Successful folding preserves newline-freeness of every token. -/
theorem fold_no_newline (cls f : List Str)
    (hf : fold_jinja_tags_in_class cls = some f)
    (h : ∀ t ∈ cls, '\n' ∉ t) : ∀ t ∈ f, '\n' ∉ t := by
  unfold fold_jinja_tags_in_class at hf
  split at hf
  · simp only [Option.some.injEq] at hf
    subst hf
    exact h
  · dsimp only at hf
    split at hf
    · simp only [Option.some.injEq] at hf
      subst hf
      exact applyFolds_no_newline _ cls h
    · exact absurd hf (by simp)

/-- Pointwise-equal predicates filter alike. -/
theorem filter_congr_mem {α : Type} (l : List α) (p q : α → Bool)
    (h : ∀ x ∈ l, p x = q x) : l.filter p = l.filter q := by
  induction l with
  | nil => rfl
  | cons a l ih =>
    simp only [List.filter_cons]
    rw [h a (List.mem_cons_self a l)]
    rw [ih (fun x hx => h x (List.mem_cons_of_mem a hx))]

/-- Pointwise-equal predicates agree on `any`. -/
theorem any_congr_mem {α : Type} (l : List α) (p q : α → Bool)
    (h : ∀ x ∈ l, p x = q x) : l.any p = l.any q := by
  induction l with
  | nil => rfl
  | cons a l ih =>
    simp only [List.any_cons]
    rw [h a (List.mem_cons_self a l)]
    rw [ih (fun x hx => h x (List.mem_cons_of_mem a hx))]

/-- The body of `get_element_class` once a token-list `class` value has
been looked up. -/
theorem get_element_class_eq_toks (attrs : Attrs) (cls : List Str)
    (hv : lookupAttr "class" attrs = some (AttrVal.toks cls)) :
    get_element_class attrs =
      match fold_jinja_tags_in_class cls with
      | none => none
      | some f =>
        if f.any (fun t => reservedMatch t) then
          some ((f.filter (fun t => !t.isEmpty && !reservedMatch t)).foldl
              (fun acc t => acc ++ '.' :: t) [],
            setAttr "class" (AttrVal.toks (f.filter (fun t => reservedMatch t))) attrs)
        else
          some ((f.filter (fun t => !t.isEmpty && !reservedMatch t)).foldl
              (fun acc t => acc ++ '.' :: t) [],
            eraseAttr "class" attrs) := by
  unfold get_element_class
  rw [hv]

/-- C5: for every attribute map whose `class` value is a token list (class
tokens are whitespace-split by the parser, hence newline-free),
`get_element_class` returns the concatenation of `.` + token for every
non-empty token containing no reserved occurrence, in original order; when
at least one reserved token exists the `class` entry is replaced by exactly
the reserved tokens in order, otherwise the `class` key is deleted; when
`class` is absent the result is empty and the map unchanged.  All of this
applies to the token list after templating-fragment folding, whose failure
aborts both sides alike. -/
theorem C5_class_shorthand (attrs : Attrs)
    (hnl : (match lookupAttr "class" attrs with
            | some (AttrVal.toks ts) => ts.all (fun t => !t.contains '\n')
            | _ => true) = true) :
    get_element_class attrs =
      match lookupAttr "class" attrs with
      | some (AttrVal.toks cls) =>
        (fold_jinja_tags_in_class cls).map (fun f =>
          ((f.filter (fun t => !t.isEmpty && !specContainsReserved t)).foldl
              (fun acc t => acc ++ '.' :: t) [],
           if f.any (fun t => specContainsReserved t) then
             setAttr "class" (AttrVal.toks (f.filter (fun t => specContainsReserved t))) attrs
           else eraseAttr "class" attrs))
      | some (AttrVal.str _) => none
      | none => some ([], attrs) := by
  cases hv : lookupAttr "class" attrs with
  | none =>
    unfold get_element_class
    rw [hv]
  | some v =>
    cases v with
    | str s =>
      unfold get_element_class
      rw [hv]
    | toks cls =>
      rw [hv] at hnl
      have hcl : ∀ t ∈ cls, '\n' ∉ t := by
        intro t ht
        have := List.all_eq_true.mp hnl t ht
        simpa using this
      refine (get_element_class_eq_toks attrs cls hv).trans ?_
      show _ = (fold_jinja_tags_in_class cls).map (fun f =>
        ((f.filter (fun t => !t.isEmpty && !specContainsReserved t)).foldl
            (fun acc t => acc ++ '.' :: t) [],
         if f.any (fun t => specContainsReserved t) then
           setAttr "class" (AttrVal.toks (f.filter (fun t => specContainsReserved t))) attrs
         else eraseAttr "class" attrs))
      cases hff : fold_jinja_tags_in_class cls with
      | none => rfl
      | some f =>
        have hfl : ∀ t ∈ f, '\n' ∉ t := fold_no_newline cls f hff hcl
        have heq : ∀ t ∈ f, reservedMatch t = specContainsReserved t :=
          fun t ht => reservedMatch_eq_spec t (hfl t ht)
        show (if (f.any fun t => reservedMatch t) = true then
                some ((f.filter (fun t => !t.isEmpty && !reservedMatch t)).foldl
                    (fun acc t => acc ++ '.' :: t) [],
                  setAttr "class" (AttrVal.toks (f.filter (fun t => reservedMatch t))) attrs)
              else
                some ((f.filter (fun t => !t.isEmpty && !reservedMatch t)).foldl
                    (fun acc t => acc ++ '.' :: t) [],
                  eraseAttr "class" attrs)) =
          some ((f.filter (fun t => !t.isEmpty && !specContainsReserved t)).foldl
              (fun acc t => acc ++ '.' :: t) [],
            if (f.any fun t => specContainsReserved t) = true then
              setAttr "class" (AttrVal.toks (f.filter (fun t => specContainsReserved t))) attrs
            else eraseAttr "class" attrs)
        rw [filter_congr_mem f (fun t => !t.isEmpty && !reservedMatch t)
            (fun t => !t.isEmpty && !specContainsReserved t)
            (fun t ht => by
              show (!t.isEmpty && !reservedMatch t) = (!t.isEmpty && !specContainsReserved t)
              rw [heq t ht]),
          any_congr_mem f (fun t => reservedMatch t) (fun t => specContainsReserved t) heq,
          filter_congr_mem f (fun t => reservedMatch t) (fun t => specContainsReserved t) heq]
        by_cases ha : (f.any fun t => specContainsReserved t) = true
        · rw [if_pos ha, if_pos ha]
        · rw [if_neg ha, if_neg ha]

/-- C5 witness: the mapping `class='cls1 cl.s2 c#ls3'` yields shorthand
`.cls1` and the class entry is replaced by the two reserved tokens. -/
theorem C5_witness :
    get_element_class
      [("class", AttrVal.toks ["cls1".data, "cl.s2".data, "c#ls3".data])] =
      some (".cls1".data,
        [("class", AttrVal.toks ["cl.s2".data, "c#ls3".data])]) :=
  (C5_class_shorthand
    [("class", AttrVal.toks ["cls1".data, "cl.s2".data, "c#ls3".data])]
    (by decide)).trans (by decide)

/-! ## Claim C7 -/

/-- Every line-boundary character is Python whitespace. -/
theorem boundary_isSpace (c : Char) (h : pyIsLineBoundary c = true) :
    pyIsSpace c = true := by
  simp only [pyIsLineBoundary, pyIsSpace, Bool.or_eq_true, Bool.and_eq_true,
    beq_iff_eq, decide_eq_true_eq] at h ⊢
  omega

theorem spaceJoin_cons_length (w : Str) (ws : List Str) :
    w.length ≤ (spaceJoin (w :: ws)).length := by
  cases ws with
  | nil => exact Nat.le_refl _
  | cons v ws' =>
    show w.length ≤ (w ++ ' ' :: spaceJoin (v :: ws')).length
    simp only [List.length_append]
    omega

theorem spaceJoin_cons_append (p w : Str) (ws : List Str) :
    spaceJoin ((p ++ ' ' :: w) :: ws) = p ++ ' ' :: spaceJoin (w :: ws) := by
  cases ws with
  | nil => rfl
  | cons v ws' =>
    show (p ++ ' ' :: w) ++ ' ' :: spaceJoin (v :: ws') =
      p ++ ' ' :: (w ++ ' ' :: spaceJoin (v :: ws'))
    simp [List.append_assoc]

theorem spaceJoin_append_word : ∀ (g : List Str), g ≠ [] → ∀ (w : Str),
    spaceJoin (g ++ [w]) = spaceJoin g ++ ' ' :: w := by
  intro g
  induction g with
  | nil => intro h; exact absurd rfl h
  | cons x g' ih =>
    intro _ w
    cases g' with
    | nil => rfl
    | cons x2 g'' =>
      show x ++ ' ' :: spaceJoin ((x2 :: g'') ++ [w]) =
        (x ++ ' ' :: spaceJoin (x2 :: g'')) ++ ' ' :: w
      rw [ih (by simp) w]
      simp [List.append_assoc]

theorem spaceJoin_cons_head (c : Char) (r : Str) (g' : List Str) :
    ∃ t, spaceJoin ((c :: r) :: g') = c :: t := by
  cases g' with
  | nil => exact ⟨r, rfl⟩
  | cons v g'' => exact ⟨r ++ ' ' :: spaceJoin (v :: g''), rfl⟩

theorem spaceJoin_chars : ∀ (g : List Str) (c : Char),
    c ∈ spaceJoin g → c = ' ' ∨ ∃ w ∈ g, c ∈ w := by
  intro g
  induction g with
  | nil => intro c hc; exact absurd hc (by simp [spaceJoin])
  | cons w g' ih =>
    intro c hc
    cases g' with
    | nil => exact Or.inr ⟨w, List.mem_cons_self w [], hc⟩
    | cons v g'' =>
      rcases List.mem_append.mp hc with h1 | h2
      · exact Or.inr ⟨w, List.mem_cons_self _ _, h1⟩
      · rcases List.mem_cons.mp h2 with rfl | h3
        · exact Or.inl rfl
        · rcases ih c h3 with h4 | ⟨w', hw', hc'⟩
          · exact Or.inl h4
          · exact Or.inr ⟨w', List.mem_cons_of_mem w hw', hc'⟩

theorem flatten_map_singleton {α : Type} : ∀ (l : List α),
    (l.map (fun a => [a])).flatten = l := by
  intro l
  induction l with
  | nil => rfl
  | cons a l ih => simp [ih]

/-- Consuming a whitespace-free chunk just moves it into the accumulator. -/
theorem pySplitAux_word : ∀ (w : Str) (l : List Char) (cur : Str),
    (∀ c ∈ w, pyIsSpace c = false) →
    pySplitAux (w ++ l) cur = pySplitAux l (w.reverse ++ cur) := by
  intro w
  induction w with
  | nil => intro l cur _; simp
  | cons a w' ih =>
    intro l cur hw
    have ha : pyIsSpace a = false := hw a (List.mem_cons_self a w')
    rw [List.cons_append]
    simp only [pySplitAux]
    rw [if_neg (by simp [ha])]
    rw [ih l (a :: cur) (fun c hc => hw c (List.mem_cons_of_mem a hc))]
    have harg : w'.reverse ++ a :: cur = (a :: w').reverse ++ cur := by
      simp
    rw [harg]

/-- Splitting a single-space join of non-empty whitespace-free words
recovers exactly those words. -/
theorem pySplit_spaceJoin : ∀ (g : List Str),
    (∀ w ∈ g, w ≠ [] ∧ ∀ c ∈ w, pyIsSpace c = false) →
    pySplit (spaceJoin g) = g := by
  intro g
  induction g with
  | nil => intro _; rfl
  | cons w g' ih =>
    intro hg
    have hw := hg w (List.mem_cons_self w g')
    have hg' : ∀ w' ∈ g', w' ≠ [] ∧ ∀ c ∈ w', pyIsSpace c = false :=
      fun w' h => hg w' (List.mem_cons_of_mem w h)
    cases g' with
    | nil =>
      show pySplit w = [w]
      unfold pySplit
      rw [show w = w ++ [] from (List.append_nil w).symm, pySplitAux_word w [] [] hw.2]
      simp only [pySplitAux, List.append_nil]
      rw [if_neg (by simpa [List.isEmpty_iff, List.reverse_eq_nil_iff] using hw.1)]
      simp
    | cons v g'' =>
      show pySplit (w ++ ' ' :: spaceJoin (v :: g'')) = w :: v :: g''
      unfold pySplit
      rw [pySplitAux_word w (' ' :: spaceJoin (v :: g'')) [] hw.2]
      show pySplitAux (' ' :: spaceJoin (v :: g'')) (w.reverse ++ []) = _
      unfold pySplitAux
      rw [if_pos (by decide)]
      rw [if_neg (by simpa [List.isEmpty_iff, List.reverse_eq_nil_iff] using hw.1)]
      have := ih hg'
      unfold pySplit at this
      rw [this]
      simp

/-- One step of `pySplitlinesAux` at a literal newline. -/
theorem pySplitlinesAux_newline (rest : List Char) (cur : Str) :
    pySplitlinesAux ('\n' :: rest) cur = cur.reverse :: pySplitlinesAux rest [] := by
  cases rest with
  | nil => rfl
  | cons cn cs' => rfl

/-- One step of `pySplitlinesAux` at a non-boundary character. -/
theorem pySplitlinesAux_cons_nb (a : Char) (cs : List Char) (cur : Str)
    (ha : pyIsLineBoundary a = false) :
    pySplitlinesAux (a :: cs) cur = pySplitlinesAux cs (a :: cur) := by
  rw [pySplitlinesAux.eq_def]
  split
  · rename_i heq
    exact absurd heq (by simp)
  · rename_i c' cs' heq
    injection heq with h1 h2
    subst h1
    subst h2
    rw [if_neg (show ¬pyIsLineBoundary a = true by simp [ha])]

/-- Consuming a boundary-free segment followed by a newline closes exactly
one line. -/
theorem pySplitlinesAux_append : ∀ (l : Str) (cur : Str) (rest : List Char),
    (∀ c ∈ l, pyIsLineBoundary c = false) →
    pySplitlinesAux (l ++ '\n' :: rest) cur =
      (cur.reverse ++ l) :: pySplitlinesAux rest [] := by
  intro l
  induction l with
  | nil =>
    intro cur rest _
    rw [List.nil_append, List.append_nil, pySplitlinesAux_newline]
  | cons a l' ih =>
    intro cur rest hl
    have ha : pyIsLineBoundary a = false := hl a (List.mem_cons_self a l')
    rw [List.cons_append, pySplitlinesAux_cons_nb a _ cur ha]
    rw [ih (a :: cur) rest (fun c hc => hl c (List.mem_cons_of_mem a hc))]
    simp

/-- A boundary-free remainder forms at most one final line. -/
theorem pySplitlinesAux_last : ∀ (l : Str) (cur : Str),
    (∀ c ∈ l, pyIsLineBoundary c = false) →
    pySplitlinesAux l cur =
      if (cur.reverse ++ l).isEmpty then [] else [cur.reverse ++ l] := by
  intro l
  induction l with
  | nil =>
    intro cur _
    show (if cur.isEmpty = true then [] else [cur.reverse]) = _
    rw [List.append_nil]
    by_cases h : cur.isEmpty = true
    · rw [if_pos h,
        if_pos (show cur.reverse.isEmpty = true by
          simpa [List.isEmpty_iff, List.reverse_eq_nil_iff] using h)]
    · rw [if_neg h,
        if_neg (show ¬cur.reverse.isEmpty = true by
          simpa [List.isEmpty_iff, List.reverse_eq_nil_iff] using h)]
  | cons a l' ih =>
    intro cur hl
    have ha : pyIsLineBoundary a = false := hl a (List.mem_cons_self a l')
    rw [pySplitlinesAux_cons_nb a l' cur ha]
    rw [ih (a :: cur) (fun c hc => hl c (List.mem_cons_of_mem a hc))]
    have harg : (a :: cur).reverse ++ l' = cur.reverse ++ a :: l' := by simp
    rw [harg]

/-- Splitting the newline-flush of non-empty boundary-free lines recovers
exactly those lines. -/
theorem pySplitlines_flush : ∀ (ls : List Str),
    (∀ l ∈ ls, l ≠ [] ∧ ∀ c ∈ l, pyIsLineBoundary c = false) →
    pySplitlines (ls.foldr (fun l acc => l ++ '\n' :: acc) []) = ls := by
  intro ls
  induction ls with
  | nil => intro _; rfl
  | cons l ls ih =>
    intro h
    have hl := h l (List.mem_cons_self l ls)
    show pySplitlinesAux (l ++ '\n' :: ls.foldr (fun l acc => l ++ '\n' :: acc) []) [] = l :: ls
    rw [pySplitlinesAux_append l [] _ hl.2]
    rw [List.reverse_nil, List.nil_append]
    exact congrArg (l :: ·) (ih (fun l' h' => h l' (List.mem_cons_of_mem l h')))

/-- When the whole accumulated content fits under the width, the wrap loop
emits a single line: the space-join of `print_line` and the words. -/
theorem wrapWords_total (fw : Nat) : ∀ (ws : List Str) (p : Str), p ≠ [] →
    (spaceJoin (p :: ws)).length < fw →
    wrapWords [] fw p ws = [spaceJoin (p :: ws)] := by
  intro ws
  induction ws with
  | nil =>
    intro p hp _
    have hpe : p.isEmpty = false := by simpa [List.isEmpty_iff] using hp
    simp only [wrapWords]
    rw [if_neg (show ¬p.isEmpty = true by simp [hpe])]
    rfl
  | cons w ws ih =>
    intro p hp hlen
    have hpe : p.isEmpty = false := by simpa [List.isEmpty_iff] using hp
    have hjoin : spaceJoin ((p ++ ' ' :: w) :: ws) = spaceJoin (p :: w :: ws) :=
      (spaceJoin_cons_append p w ws).trans rfl
    have hlt : (p ++ ' ' :: w).length < fw := by
      have h1 : w.length ≤ (spaceJoin (w :: ws)).length := spaceJoin_cons_length w ws
      have h2 : (spaceJoin (p :: w :: ws)).length =
          p.length + 1 + (spaceJoin (w :: ws)).length := by
        show (p ++ ' ' :: spaceJoin (w :: ws)).length = _
        simp only [List.length_append, List.length_cons]
        omega
      simp only [List.length_append, List.length_cons]
      omega
    simp only [wrapWords]
    rw [if_neg (show ¬p.isEmpty = true by simp [hpe])]
    rw [if_pos hlt]
    rw [ih (p ++ ' ' :: w) (by simp) (by rw [hjoin]; exact hlen)]
    rw [hjoin]

/-- Every line emitted by the wrap loop from good bounded words (and a
`print_line` that is empty or itself such a join) is a space-join of a
non-empty list of good words, shorter than the width. -/
theorem wrapWords_emitted (fw : Nat) : ∀ (ws : List Str) (p : Str),
    (∀ w ∈ ws, (w ≠ [] ∧ ∀ c ∈ w, pyIsSpace c = false) ∧ w.length < fw) →
    (p = [] ∨ ∃ g, g ≠ [] ∧ (∀ w ∈ g, w ≠ [] ∧ ∀ c ∈ w, pyIsSpace c = false) ∧
      p = spaceJoin g ∧ p.length < fw) →
    ∀ l ∈ wrapWords [] fw p ws,
      ∃ g, g ≠ [] ∧ (∀ w ∈ g, w ≠ [] ∧ ∀ c ∈ w, pyIsSpace c = false) ∧
        l = spaceJoin g ∧ l.length < fw := by
  intro ws
  induction ws with
  | nil =>
    intro p _ hp l hl
    simp only [wrapWords] at hl
    by_cases he : p.isEmpty = true
    · rw [if_pos he] at hl
      exact absurd hl (by simp)
    · rw [if_neg he] at hl
      rcases List.mem_singleton.mp hl with rfl
      rcases hp with rfl | ⟨g, hg1, hg2, hg3, hg4⟩
      · exact absurd (rfl : (List.isEmpty ([] : Str)) = true) he
      · exact ⟨g, hg1, hg2, hg3, hg4⟩
  | cons w ws ih =>
    intro p hws hp l hl
    have hw := hws w (List.mem_cons_self w ws)
    have hws' : ∀ w' ∈ ws, (w' ≠ [] ∧ ∀ c ∈ w', pyIsSpace c = false) ∧ w'.length < fw :=
      fun w' h' => hws w' (List.mem_cons_of_mem w h')
    simp only [wrapWords] at hl
    rcases hp with rfl | ⟨g, hg1, hg2, hg3, hg4⟩
    · rw [if_pos (show (List.isEmpty ([] : Str)) = true by decide)] at hl
      rw [if_pos hw.2] at hl
      exact ih w hws' (Or.inr ⟨[w], by simp, by simpa using hw.1, rfl, hw.2⟩) l hl
    · have hpne : p ≠ [] := by
        obtain ⟨w0, g', rfl⟩ : ∃ w0 g', g = w0 :: g' := by
          cases g with
          | nil => exact absurd rfl hg1
          | cons w0 g' => exact ⟨w0, g', rfl⟩
        have hw0 := hg2 w0 (List.mem_cons_self w0 g')
        obtain ⟨c0, r0, rfl⟩ : ∃ c0 r0, w0 = c0 :: r0 := by
          cases w0 with
          | nil => exact absurd rfl hw0.1
          | cons c0 r0 => exact ⟨c0, r0, rfl⟩
        obtain ⟨t, ht⟩ := spaceJoin_cons_head c0 r0 g'
        rw [hg3, ht]
        simp
      rw [if_neg (show ¬p.isEmpty = true by simpa [List.isEmpty_iff] using hpne)] at hl
      by_cases hlt : (p ++ ' ' :: w).length < fw
      · rw [if_pos hlt] at hl
        refine ih (p ++ ' ' :: w) hws' (Or.inr ⟨g ++ [w], by simp, ?_, ?_, hlt⟩) l hl
        · intro w' hw'
          rcases List.mem_append.mp hw' with h1 | h2
          · exact hg2 w' h1
          · rcases List.mem_singleton.mp h2 with rfl
            exact hw.1
        · rw [spaceJoin_append_word g hg1 w, hg3]
      · rw [if_neg hlt] at hl
        rcases List.mem_cons.mp hl with rfl | hl'
        · exact ⟨g, hg1, hg2, hg3, hg4⟩
        · exact ih w hws' (Or.inr ⟨[w], by simp, by simpa using hw.1, rfl, hw.2⟩) l hl'

/-- A line that is a short-enough space-join of good words re-wraps to
itself. -/
theorem wrapLine_fixed (fw : Nat) (l : Str)
    (hg : ∃ g, g ≠ [] ∧ (∀ w ∈ g, w ≠ [] ∧ ∀ c ∈ w, pyIsSpace c = false) ∧
      l = spaceJoin g ∧ l.length < fw) :
    wrapLine fw 0 l = [l] := by
  obtain ⟨g, hg1, hg2, rfl, hlen⟩ := hg
  obtain ⟨w0, g', rfl⟩ : ∃ w0 g', g = w0 :: g' := by
    cases g with
    | nil => exact absurd rfl hg1
    | cons w0 g' => exact ⟨w0, g', rfl⟩
  have hw0 := hg2 w0 (List.mem_cons_self w0 g')
  obtain ⟨c0, r0, rfl⟩ : ∃ c0 r0, w0 = c0 :: r0 := by
    cases w0 with
    | nil => exact absurd rfl hw0.1
    | cons c0 r0 => exact ⟨c0, r0, rfl⟩
  have hc0 : pyIsSpace c0 = false := hw0.2 c0 (List.mem_cons_self c0 r0)
  obtain ⟨t, ht⟩ := spaceJoin_cons_head c0 r0 g'
  have hli : lineIndent (spaceJoin ((c0 :: r0) :: g')) = 0 := by
    rw [ht]
    simp [lineIndent, hc0]
  unfold wrapLine
  rw [hli, pySplit_spaceJoin _ hg2]
  show wrapWords [] fw (spaces 0) ((c0 :: r0) :: g') = _
  show wrapWords [] fw [] ((c0 :: r0) :: g') = _
  have hstep : wrapWords [] fw [] ((c0 :: r0) :: g') =
      wrapWords [] fw (c0 :: r0) g' := by
    simp only [wrapWords]
    rw [if_pos (show (List.isEmpty ([] : Str)) = true by decide)]
    rw [if_pos (show (c0 :: r0).length < fw from
      Nat.lt_of_le_of_lt (spaceJoin_cons_length (c0 :: r0) g') hlen)]
  rw [hstep, wrapWords_total fw g' (c0 :: r0) (by simp) hlen]

/-- The emitted physical lines of a full text, under the amended
hypotheses, are short space-joins of good words. -/
theorem wrappedLines_emitted (fw : Nat) (text : Str)
    (hli : ∀ line ∈ pySplitlines text, lineIndent line = 0)
    (hw : ∀ line ∈ pySplitlines text, ∀ w ∈ pySplit line, w.length < fw) :
    ∀ l ∈ wrappedLines fw 0 text,
      ∃ g, g ≠ [] ∧ (∀ w ∈ g, w ≠ [] ∧ ∀ c ∈ w, pyIsSpace c = false) ∧
        l = spaceJoin g ∧ l.length < fw := by
  intro l hl
  simp only [wrappedLines, List.mem_flatten, List.mem_map] at hl
  obtain ⟨lls, ⟨line, hline, rfl⟩, hmem⟩ := hl
  have hmem' : l ∈ wrapWords [] fw [] (pySplit line) := by
    unfold wrapLine at hmem
    rw [hli line hline] at hmem
    exact hmem
  refine wrapWords_emitted fw (pySplit line) [] ?_ (Or.inl rfl) l hmem'
  intro w hw'
  exact ⟨pySplit_good line w hw', hw line hline w hw'⟩

/-- Claim C7 counterexample: wrapping the two-character text consisting of
a space and `a` at indent 0 yields `␣␣a` plus newline, whose re-wrap is
`␣␣␣a` plus newline: the line-indent re-application inserts an extra
joining space on every pass, so word-wrap is not idempotent. -/
theorem C7_counterexample :
    indented_string 0 (indented_string 0 [' ', 'a'] 80) 80 ≠
      indented_string 0 [' ', 'a'] 80 := by
  decide

/-- C7 amended: word-wrap is idempotent at indent 0 on texts whose lines
carry no leading whitespace and whose whitespace-delimited words are each
strictly shorter than the full width; re-wrapping such already-wrapped
output reproduces it unchanged. -/
theorem C7_amended (fw : Nat) (text : Str)
    (hli : ∀ line ∈ pySplitlines text, lineIndent line = 0)
    (hw : ∀ line ∈ pySplitlines text, ∀ w ∈ pySplit line, w.length < fw) :
    indented_string 0 (indented_string 0 text fw) fw = indented_string 0 text fw := by
  have hall := wrappedLines_emitted fw text hli hw
  have hlines : ∀ l ∈ wrappedLines fw 0 text,
      l ≠ [] ∧ ∀ c ∈ l, pyIsLineBoundary c = false := by
    intro l hl
    obtain ⟨g, hg1, hg2, rfl, -⟩ := hall l hl
    constructor
    · obtain ⟨w0, g', rfl⟩ : ∃ w0 g', g = w0 :: g' := by
        cases g with
        | nil => exact absurd rfl hg1
        | cons w0 g' => exact ⟨w0, g', rfl⟩
      have hw0 := hg2 w0 (List.mem_cons_self w0 g')
      obtain ⟨c0, r0, rfl⟩ : ∃ c0 r0, w0 = c0 :: r0 := by
        cases w0 with
        | nil => exact absurd rfl hw0.1
        | cons c0 r0 => exact ⟨c0, r0, rfl⟩
      obtain ⟨t, ht⟩ := spaceJoin_cons_head c0 r0 g'
      rw [ht]
      simp
    · intro c hc
      rcases spaceJoin_chars g c hc with rfl | ⟨w', hw', hc'⟩
      · decide
      · have hns : pyIsSpace c = false := (hg2 w' hw').2 c hc'
        by_contra hb
        have hb' : pyIsLineBoundary c = true := by
          cases hx : pyIsLineBoundary c with
          | true => rfl
          | false => exact absurd hx hb
        rw [boundary_isSpace c hb'] at hns
        exact absurd hns (by simp)
  have hsplit : pySplitlines (indented_string 0 text fw) = wrappedLines fw 0 text := by
    unfold indented_string
    exact pySplitlines_flush _ hlines
  have h2 : wrappedLines fw 0 (indented_string 0 text fw) = wrappedLines fw 0 text := by
    unfold wrappedLines
    rw [hsplit]
    have hmap : (wrappedLines fw 0 text).map (wrapLine fw 0) =
        (wrappedLines fw 0 text).map (fun l => [l]) := by
      refine List.map_congr_left ?_
      intro l hl
      exact wrapLine_fixed fw l (hall l hl)
    rw [hmap, flatten_map_singleton]
    rfl
  show (wrappedLines fw 0 (indented_string 0 text fw)).foldr
      (fun l acc => l ++ '\n' :: acc) [] = indented_string 0 text fw
  rw [h2]
  rfl

/-- C7 witness: a plain two-word text is a fixed point of a second wrap. -/
theorem C7_witness :
    indented_string 0 (indented_string 0 "ab cd".data 80) 80 =
      indented_string 0 "ab cd".data 80 :=
  C7_amended 80 "ab cd".data (by decide) (by decide)

/-! ## Claim C8 -/

theorem pySplitlinesAux_nil (cur : Str) :
    pySplitlinesAux [] cur = if cur.isEmpty then [] else [cur.reverse] := rfl

/-- One step of `pySplitlinesAux` at a CR LF pair. -/
theorem pySplitlinesAux_cons_b2 (c cn : Char) (cs' : List Char) (cur : Str)
    (hb : pyIsLineBoundary c = true) (hrn : (c == '\r' && cn == '\n') = true) :
    pySplitlinesAux (c :: cn :: cs') cur = cur.reverse :: pySplitlinesAux cs' [] := by
  rw [pySplitlinesAux.eq_def]
  split
  · rename_i heq
    exact absurd heq (by simp)
  · rename_i u1 u2 u3 c' csx heq
    injection heq with h1 h2
    subst h1
    subst h2
    rw [if_pos hb]
    show (if (c == '\r' && cn == '\n') = true then u1.reverse :: pySplitlinesAux cs' []
          else u1.reverse :: pySplitlinesAux (cn :: cs') []) =
      u1.reverse :: pySplitlinesAux cs' []
    rw [if_pos hrn]

/-- One step of `pySplitlinesAux` at a boundary not followed by the second
half of a CR LF pair. -/
theorem pySplitlinesAux_cons_b3 (c cn : Char) (cs' : List Char) (cur : Str)
    (hb : pyIsLineBoundary c = true) (hrn : ¬(c == '\r' && cn == '\n') = true) :
    pySplitlinesAux (c :: cn :: cs') cur = cur.reverse :: pySplitlinesAux (cn :: cs') [] := by
  rw [pySplitlinesAux.eq_def]
  split
  · rename_i heq
    exact absurd heq (by simp)
  · rename_i u1 u2 u3 c' csx heq
    injection heq with h1 h2
    subst h1
    subst h2
    rw [if_pos hb]
    show (if (c == '\r' && cn == '\n') = true then u1.reverse :: pySplitlinesAux cs' []
          else u1.reverse :: pySplitlinesAux (cn :: cs') []) =
      u1.reverse :: pySplitlinesAux (cn :: cs') []
    rw [if_neg hrn]

/-- One step of `pySplitlinesAux` at a final boundary character. -/
theorem pySplitlinesAux_single_b (c : Char) (cur : Str)
    (hb : pyIsLineBoundary c = true) :
    pySplitlinesAux [c] cur = [cur.reverse] := by
  rw [pySplitlinesAux.eq_def]
  split
  · rename_i heq
    exact absurd heq (by simp)
  · rename_i u1 u2 u3 c' csx heq
    injection heq with h1 h2
    subst h1
    subst h2
    rw [if_pos hb]

/-- No produced line contains a line-boundary character. -/
theorem pySplitlinesAux_no_boundary : ∀ (s : List Char) (cur : Str),
    (∀ c ∈ cur, pyIsLineBoundary c = false) →
    ∀ l ∈ pySplitlinesAux s cur, ∀ c ∈ l, pyIsLineBoundary c = false := by
  intro s cur
  induction s, cur using pySplitlinesAux.induct with
  | case1 cur hemp =>
    intro _ l hl
    rw [pySplitlinesAux_nil, if_pos hemp] at hl
    exact absurd hl (by simp)
  | case2 cur hemp =>
    intro hcur l hl
    rw [pySplitlinesAux_nil, if_neg hemp] at hl
    rcases List.mem_singleton.mp hl with rfl
    intro c hc
    exact hcur c (List.mem_reverse.mp hc)
  | case3 c cur hb cn cs' hrn ih =>
    intro hcur l hl
    rw [pySplitlinesAux_cons_b2 c cn cs' cur hb hrn] at hl
    rcases List.mem_cons.mp hl with rfl | hl'
    · intro d hd
      exact hcur d (List.mem_reverse.mp hd)
    · exact ih (by simp) l hl'
  | case4 c cur hb cn cs' hrn ih =>
    intro hcur l hl
    rw [pySplitlinesAux_cons_b3 c cn cs' cur hb hrn] at hl
    rcases List.mem_cons.mp hl with rfl | hl'
    · intro d hd
      exact hcur d (List.mem_reverse.mp hd)
    · exact ih (by simp) l hl'
  | case5 c cur hb =>
    intro hcur l hl
    rw [pySplitlinesAux_single_b c cur hb] at hl
    rcases List.mem_singleton.mp hl with rfl
    intro d hd
    exact hcur d (List.mem_reverse.mp hd)
  | case6 c cs cur hnb ih =>
    intro hcur l hl
    have hnb' : pyIsLineBoundary c = false := by
      cases hx : pyIsLineBoundary c with
      | true => exact absurd hx hnb
      | false => rfl
    rw [pySplitlinesAux_cons_nb c cs cur hnb'] at hl
    refine ih ?_ l hl
    intro d hd
    rcases List.mem_cons.mp hd with rfl | hd'
    · exact hnb'
    · exact hcur d hd'

theorem pySplitlines_no_boundary (s : Str) :
    ∀ l ∈ pySplitlines s, ∀ c ∈ l, pyIsLineBoundary c = false :=
  pySplitlinesAux_no_boundary s [] (by simp)

theorem digitChar_bound (n : Nat) :
    48 ≤ (digitChar n).toNat ∧ (digitChar n).toNat ≤ 57 := by
  unfold digitChar
  split <;> decide

theorem natDecAux_digits : ∀ (n : Nat) (acc : Str),
    (∀ c ∈ acc, 48 ≤ c.toNat ∧ c.toNat ≤ 57) →
    ∀ c ∈ natDecAux n acc, 48 ≤ c.toNat ∧ c.toNat ≤ 57 := by
  intro n acc
  induction n, acc using natDecAux.induct with
  | case1 acc =>
    intro h c hc
    rw [show natDecAux 0 acc = acc from by
      rw [natDecAux.eq_def]
      rw [dif_pos rfl]] at hc
    exact h c hc
  | case2 n acc hn ih =>
    intro h c hc
    rw [show natDecAux n acc = natDecAux (n / 10) (digitChar (n % 10) :: acc) from by
      rw [natDecAux.eq_def]
      rw [dif_neg hn]] at hc
    refine ih ?_ c hc
    intro d hd
    rcases List.mem_cons.mp hd with rfl | hd'
    · exact digitChar_bound (n % 10)
    · exact h d hd'

theorem natDec_digits (n : Nat) :
    ∀ c ∈ natDec n, 48 ≤ c.toNat ∧ c.toNat ≤ 57 := by
  unfold natDec
  by_cases h : (n == 0) = true
  · rw [if_pos h]
    intro c hc
    rcases List.mem_singleton.mp hc with rfl
    decide
  · rw [if_neg h]
    exact natDecAux_digits n [] (by simp)

theorem tableLookup_mem : ∀ (l : List (Nat × Str)) (n : Nat) (v : Str),
    tableLookup n l = some v → (n, v) ∈ l := by
  intro l
  induction l with
  | nil => intro n v h; exact absurd h (by simp [tableLookup])
  | cons p rest ih =>
    intro n v h
    obtain ⟨k, w⟩ := p
    unfold tableLookup at h
    by_cases hk : (k == n) = true
    · rw [if_pos hk] at h
      simp only [Option.some.injEq] at h
      subst h
      have : k = n := by simpa using hk
      subst this
      exact List.mem_cons_self _ _
    · rw [if_neg hk] at h
      exact List.mem_cons_of_mem _ (ih n v h)

theorem codepoint2name_good :
    codepoint2name.all
      (fun p => p.2.all (fun c => decide (34 ≤ c.toNat) && decide (c.toNat ≤ 126))) = true := by
  decide

theorem table_name_good (n : Nat) (nm : Str)
    (h : tableLookup n codepoint2name = some nm) :
    ∀ c ∈ nm, 34 ≤ c.toNat ∧ c.toNat ≤ 126 := by
  intro c hc
  have hmem := tableLookup_mem codepoint2name n nm h
  have h1 := List.all_eq_true.mp codepoint2name_good (n, nm) hmem
  have h2 := List.all_eq_true.mp h1 c hc
  simpa using h2

theorem clean_quotes_good (s : Str)
    (h : ∀ c ∈ s, 34 ≤ c.toNat ∧ c.toNat ≤ 126) :
    ∀ c ∈ clean_quotes s, 34 ≤ c.toNat ∧ c.toNat ≤ 126 := by
  unfold clean_quotes
  split_ifs with h1 h2 h3
  · intro c hc
    rcases List.mem_singleton.mp hc with rfl
    decide
  · intro c hc
    rcases List.mem_singleton.mp hc with rfl
    decide
  · intro c hc
    have hc' : c = '.' := by
      have h4 : ("...".data : Str) = ['.', '.', '.'] := rfl
      rw [h4] at hc
      simpa using hc
    subst hc'
    decide
  · exact h

theorem clean_quotes_ne_nil (s : Str) (h : s ≠ []) : clean_quotes s ≠ [] := by
  unfold clean_quotes
  split_ifs <;> simp [h]

/-- A printable-ASCII character converts to itself. -/
theorem good_stable (c : Char) (h1 : 34 ≤ c.toNat) (h2 : c.toNat ≤ 126) :
    convertChar c = [c] := by
  unfold convertChar
  rw [if_neg (show ¬(decide (128 < c.toNat) && skip_unicode_to_entities c.toNat) = true by
    simp only [Bool.and_eq_true, decide_eq_true_eq]
    intro hcontra
    omega)]

/-- A printable-ASCII character is not a line boundary. -/
theorem good_not_boundary (c : Char) (h1 : 34 ≤ c.toNat) (h2 : c.toNat ≤ 126) :
    pyIsLineBoundary c = false := by
  cases hx : pyIsLineBoundary c with
  | false => rfl
  | true =>
    exfalso
    simp only [pyIsLineBoundary, Bool.or_eq_true, beq_iff_eq] at hx
    omega

theorem convertChar_ne_nil (c : Char) : convertChar c ≠ [] := by
  unfold convertChar
  split
  · split
    · refine clean_quotes_ne_nil _ ?_
      simp
    · simp
  · simp

/-- Every character produced by converting a non-boundary character is
itself stable under conversion and not a line boundary. -/
theorem convertChar_chars (c : Char) (hc : pyIsLineBoundary c = false) :
    ∀ d ∈ convertChar c, convertChar d = [d] ∧ pyIsLineBoundary d = false := by
  intro d hd
  unfold convertChar at hd
  by_cases hcond : (decide (128 < c.toNat) && skip_unicode_to_entities c.toNat) = true
  · rw [if_pos hcond] at hd
    split at hd
    · rename_i nm htl
      have hnm := table_name_good c.toNat nm htl
      have hall : ∀ e ∈ ('&' :: nm ++ [';']), 34 ≤ e.toNat ∧ e.toNat ≤ 126 := by
        intro e he
        rcases List.mem_cons.mp he with rfl | he'
        · decide
        · rcases List.mem_append.mp he' with h1 | h1
          · exact hnm e h1
          · rcases List.mem_singleton.mp h1 with rfl
            decide
      have hgood := clean_quotes_good _ hall d hd
      exact ⟨good_stable d hgood.1 hgood.2, good_not_boundary d hgood.1 hgood.2⟩
    · rcases List.mem_cons.mp hd with rfl | hd'
      · exact ⟨by decide, by decide⟩
      rcases List.mem_cons.mp hd' with rfl | hd''
      · exact ⟨by decide, by decide⟩
      rcases List.mem_append.mp hd'' with h1 | h1
      · have := natDec_digits c.toNat d h1
        exact ⟨good_stable d (by omega) (by omega),
          good_not_boundary d (by omega) (by omega)⟩
      · rcases List.mem_singleton.mp h1 with rfl
        exact ⟨by decide, by decide⟩
  · rw [if_neg hcond] at hd
    rcases List.mem_singleton.mp hd with rfl
    refine ⟨?_, hc⟩
    unfold convertChar
    rw [if_neg hcond]

/-- Mapping a stabilising conversion over a stable string is the
identity. -/
theorem convLine_stable : ∀ (l : Str),
    (∀ d ∈ l, convertChar d = [d]) → (l.map convertChar).flatten = l := by
  intro l
  induction l with
  | nil => intro _; rfl
  | cons c r ih =>
    intro h
    simp only [List.map_cons, List.flatten_cons]
    rw [h c (List.mem_cons_self c r), ih (fun d hd => h d (List.mem_cons_of_mem c hd))]
    rfl

/-- Characters of a converted boundary-free line are stable and
boundary-free. -/
theorem convLine_chars (line : Str)
    (hline : ∀ c ∈ line, pyIsLineBoundary c = false) :
    ∀ d ∈ (line.map convertChar).flatten,
      convertChar d = [d] ∧ pyIsLineBoundary d = false := by
  intro d hd
  simp only [List.mem_flatten, List.mem_map] at hd
  obtain ⟨piece, ⟨c, hc, rfl⟩, hdp⟩ := hd
  exact convertChar_chars c (hline c hc) d hdp

theorem convLine_ne_nil (line : Str) (h : line ≠ []) :
    (line.map convertChar).flatten ≠ [] := by
  cases line with
  | nil => exact absurd rfl h
  | cons c r =>
    simp only [List.map_cons, List.flatten_cons]
    intro he
    rcases List.append_eq_nil.mp he with ⟨h1, -⟩
    exact convertChar_ne_nil c h1

theorem getLast?_map_eq {α β : Type} (f : α → β) : ∀ (l : List α),
    (l.map f).getLast? = l.getLast?.map f := by
  intro l
  induction l with
  | nil => rfl
  | cons a l ih =>
    cases l with
    | nil => rfl
    | cons b l' =>
      rw [List.map_cons, List.map_cons, List.getLast?_cons_cons, ← List.map_cons, ih,
        List.getLast?_cons_cons]

/-- Splitting the newline-join of boundary-free lines whose last line is
non-empty recovers exactly those lines. -/
theorem pySplitlines_nlJoin : ∀ (ms : List Str),
    (∀ m ∈ ms, ∀ c ∈ m, pyIsLineBoundary c = false) →
    ms.getLast? ≠ some ([] : Str) →
    pySplitlines (nlJoin ms) = ms := by
  intro ms
  induction ms with
  | nil => intro _ _; rfl
  | cons m ms ih =>
    intro hb hlast
    cases ms with
    | nil =>
      have hm : m ≠ [] := fun e => hlast (by rw [e]; rfl)
      show pySplitlinesAux m [] = [m]
      rw [pySplitlinesAux_last m [] (hb m (List.mem_cons_self m []))]
      rw [List.reverse_nil, List.nil_append]
      rw [if_neg (show ¬m.isEmpty = true by simpa [List.isEmpty_iff] using hm)]
    | cons m2 ms' =>
      show pySplitlinesAux (m ++ '\n' :: nlJoin (m2 :: ms')) [] = m :: m2 :: ms'
      rw [pySplitlinesAux_append m [] _ (hb m (List.mem_cons_self _ _))]
      rw [List.reverse_nil, List.nil_append]
      refine congrArg (m :: ·) ?_
      refine ih (fun m' h' => hb m' (List.mem_cons_of_mem m h')) ?_
      rw [List.getLast?_cons_cons] at hlast
      exact hlast

/-- C8 counterexample: the text `a` followed by two newlines is mapped to
`a` followed by one newline; a second application drops that one too, so
applying the folding twice differs from applying it once. -/
theorem C8_counterexample :
    unicode_to_entities (unicode_to_entities ['a', '\n', '\n']) ≠
      unicode_to_entities ['a', '\n', '\n'] := by
  decide

/-- C8 amended: non-ASCII folding never double-escapes (all characters it
emits are stable under a second pass), but it normalizes line terminators:
applying it twice equals applying it once provided the line list of the
text does not end in an empty line (the text does not end with two
consecutive line terminators); otherwise the second application drops the
trailing empty line. -/
theorem C8_amended (text : Str)
    (h : (pySplitlines text).getLast? ≠ some ([] : Str) ∨
      (pySplitlines text).length ≤ 1) :
    unicode_to_entities (unicode_to_entities text) = unicode_to_entities text := by
  have hlb := pySplitlines_no_boundary text
  have main : (pySplitlines text).getLast? ≠ some ([] : Str) →
      unicode_to_entities (unicode_to_entities text) = unicode_to_entities text := by
    intro hlast
    have hout : unicode_to_entities text =
        nlJoin ((pySplitlines text).map (fun line => (line.map convertChar).flatten)) := rfl
    have hmsb : ∀ m ∈ (pySplitlines text).map (fun line => (line.map convertChar).flatten),
        ∀ d ∈ m, pyIsLineBoundary d = false := by
      intro m hm
      simp only [List.mem_map] at hm
      obtain ⟨line, hline, rfl⟩ := hm
      intro d hd
      exact (convLine_chars line (hlb line hline) d hd).2
    have hmslast :
        ((pySplitlines text).map (fun line => (line.map convertChar).flatten)).getLast? ≠
          some ([] : Str) := by
      rw [getLast?_map_eq]
      cases hx : (pySplitlines text).getLast? with
      | none => simp
      | some m =>
        have hm : m ≠ [] := fun e => hlast (by rw [hx, e])
        simp only [Option.map_some']
        exact fun e => convLine_ne_nil m hm (Option.some_inj.mp e)
    rw [hout]
    have hsecond : unicode_to_entities
        (nlJoin ((pySplitlines text).map (fun line => (line.map convertChar).flatten))) =
        nlJoin ((pySplitlines
            (nlJoin ((pySplitlines text).map (fun line => (line.map convertChar).flatten)))).map
          (fun line => (line.map convertChar).flatten)) := rfl
    rw [hsecond]
    rw [pySplitlines_nlJoin _ hmsb hmslast]
    refine congrArg nlJoin ?_
    have hpt : ∀ m ∈ (pySplitlines text).map (fun line => (line.map convertChar).flatten),
        (fun line => (line.map convertChar).flatten) m = id m := by
      intro m hm
      simp only [List.mem_map] at hm
      obtain ⟨line, hline, rfl⟩ := hm
      exact convLine_stable _ (fun d hd => (convLine_chars line (hlb line hline) d hd).1)
    exact (List.map_congr_left hpt).trans (List.map_id _)
  rcases h with h | h
  · exact main h
  · cases hx : pySplitlines text with
    | nil =>
      have h1 : unicode_to_entities text = [] := by
        rw [show unicode_to_entities text =
          nlJoin ((pySplitlines text).map (fun line => (line.map convertChar).flatten)) from rfl]
        rw [hx]
        rfl
      rw [h1]
      rfl
    | cons m ms' =>
      have hms' : ms' = [] := by
        rw [hx] at h
        simp only [List.length_cons] at h
        exact List.eq_nil_of_length_eq_zero (by omega)
      subst hms'
      by_cases hm : m = []
      · subst hm
        have h1 : unicode_to_entities text = [] := by
          rw [show unicode_to_entities text =
            nlJoin ((pySplitlines text).map (fun line => (line.map convertChar).flatten)) from rfl]
          rw [hx]
          rfl
        rw [h1]
        rfl
      · refine main ?_
        rw [hx]
        simp only [List.getLast?_singleton]
        exact fun e => hm (Option.some_inj.mp e)

/-- C8 witness: a text containing an accented character and a terminated
first line is a fixed point of a second folding pass. -/
theorem C8_witness :
    unicode_to_entities (unicode_to_entities ('h' :: Char.ofNat 233 :: "llo\nok".data)) =
      unicode_to_entities ('h' :: Char.ofNat 233 :: "llo\nok".data) :=
  C8_amended ('h' :: Char.ofNat 233 :: "llo\nok".data) (by decide)
